import Mathlib

/-!
Verification of the Logos package-manager core.

Shallow embedding of `src/lib/package_manager_lib.cpp` (catalog lookup,
version comparison, dependency resolution, the LGX install engine, the
platform-variant resolver, and the asynchronous installation orchestrator),
together with proofs of the specified properties.

Conventions used throughout:
* Qt strings become `String`, `QStringList` becomes `List String`.
* JSON package records become the `Pkg` structure; `QJsonObject::value(k).toString()`
  yields `""` for a missing or non-string key, which is mirrored by plain
  `String` fields (defaulting to `""`) on the structures.
* External collaborators (the lgx codec, the filesystem, the network) are
  modelled as oracles carried in explicit environment structures; the engine's
  control flow over those oracles is translated from the source.
* The event-driven async orchestrator becomes an explicit state machine whose
  inputs are the caller's submissions and the network-completion callbacks.
-/

/-- One catalog entry, as consumed by the engine (`name`, `dependencies` and
`package` are the only fields the verified code paths read). -/
structure Pkg where
  name : String
  dependencies : List String := []
  packageFile : String := ""
deriving DecidableEq, Repr

/-- `PackageManagerLib::findPackageByName`: first record whose `name` field
equals the query (the C++ returns an empty `QJsonObject`, modelled as `none`). -/
def findPackageByName (packages : List Pkg) (packageName : String) : Option Pkg :=
  packages.find? (fun p => p.name = packageName)

/-- Helper for `splitDot`; the accumulator holds the current segment's
characters in reverse. -/
def splitDotAux : List Char → List Char → List String
  | [], acc => [String.mk acc.reverse]
  | c :: rest, acc =>
    if c = '.' then String.mk acc.reverse :: splitDotAux rest []
    else splitDotAux rest (c :: acc)

/-- `QString::split('.')` with Qt's default `KeepEmptyParts` behaviour:
`"" ↦ [""]`, `"a..b" ↦ ["a","","b"]`. -/
def splitDot (s : String) : List String :=
  splitDotAux s.data []

/-- `QString::toInt` (base 10): an optional sign followed by digits parses to
that integer; any other string yields `0`. -/
def qtToInt (s : String) : Int :=
  let digitsVal : List Char → Int := fun ds =>
    Int.ofNat (ds.foldl (fun a c => a * 10 + (c.toNat - '0'.toNat)) 0)
  let core : List Char → Int → Int := fun ds sign =>
    if ds ≠ [] ∧ ds.all (·.isDigit) then sign * digitsVal ds else 0
  match s.data with
  | '-' :: rest => core rest (-1)
  | '+' :: rest => core rest 1
  | l => core l 1

/-- The index loop of `versionGreaterOrEqual`: compares segment values at
positions `i, i+1, ...` while `rem` positions remain; out-of-range segments
count as `0` (`i < ap.size() ? ap[i].toInt() : 0`). -/
def vgeLoop (ap bp : List String) : Nat → Nat → Bool
  | _, 0 => true
  | i, rem + 1 =>
    let av := if i < ap.length then qtToInt (ap.getD i "") else 0
    let bv := if i < bp.length then qtToInt (bp.getD i "") else 0
    if av ≠ bv then decide (av > bv) else vgeLoop ap bp (i + 1) rem

/-- `versionGreaterOrEqual`: true when version string `a` is `>= b`, comparing
dot-separated numeric segments left to right; when every compared position is
equal the function returns `true`. -/
def versionGreaterOrEqual (a b : String) : Bool :=
  let ap := splitDot a
  let bp := splitDot b
  vgeLoop ap bp 0 (max ap.length bp.length)

/-- The numeric segments of a version string. -/
def qtSegments (s : String) : List Int :=
  (splitDot s).map qtToInt

/-- Pad a segment list with trailing zeros up to length `n`. -/
def padTo (l : List Int) (n : Nat) : List Int :=
  l ++ List.replicate (n - l.length) 0

/-- Modelled from the spec's words: lexicographic `≥` on equal-length integer
segment lists — compare left to right, decide at the first differing segment,
and return `true` when all segments are equal. -/
def lexGE : List Int → List Int → Bool
  | [], _ => true
  | _ :: _, [] => true
  | x :: xs, y :: ys => if x = y then lexGE xs ys else decide (x > y)

/-- Modelled from the spec's words: dot-separated integer segment comparison
with missing trailing segments treated as `0`. -/
def specVersionGE (a b : String) : Bool :=
  let as := qtSegments a
  let bs := qtSegments b
  let n := max as.length bs.length
  lexGE (padTo as n) (padTo bs n)

theorem padTo_length (l : List Int) (n : Nat) (h : l.length ≤ n) :
    (padTo l n).length = n := by
  simp [padTo]
  omega

/-- Segment value read the way the C++ loop reads it, as a `getD` on the
mapped segment list. -/
theorem segVal_eq_getD (ap : List String) (i : Nat) :
    (if i < ap.length then qtToInt (ap.getD i "") else 0)
      = (ap.map qtToInt).getD i 0 := by
  by_cases h : i < ap.length
  · simp only [h, if_true]
    induction ap generalizing i with
    | nil => simp at h
    | cons x xs ih =>
      cases i with
      | zero => simp [List.getD]
      | succ j =>
        simp only [List.getD_cons_succ, List.map_cons]
        exact ih j (by simpa using h)
  · simp only [h, if_false]
    rw [List.getD_eq_default]
    simpa using Nat.le_of_not_lt h

theorem padTo_getD (l : List Int) (n i : Nat) :
    (padTo l n).getD i 0 = l.getD i 0 := by
  by_cases h : i < l.length
  · simp [padTo, List.getD, List.getElem?_append_left h]
  · rw [List.getD_eq_default _ _ (Nat.le_of_not_lt h)]
    by_cases h2 : i < (padTo l n).length
    · rw [List.getD_eq_getElem _ _ h2]
      have hlen : (padTo l n).length = l.length + (n - l.length) := by
        simp [padTo]
      simp only [padTo] at h2 ⊢
      rw [List.getElem_append_right (Nat.le_of_not_lt h)]
      simp
    · rw [List.getD_eq_default _ _ (Nat.le_of_not_lt h2)]

/-- The C++ index loop computes lexicographic `≥` of the not-yet-visited
tails of the zero-padded segment lists. -/
theorem vgeLoop_eq_lexGE (ap bp : List String) (n : Nat)
    (ha : ap.length ≤ n) (hb : bp.length ≤ n) :
    ∀ rem i, i + rem = n →
      vgeLoop ap bp i rem
        = lexGE ((padTo (ap.map qtToInt) n).drop i) ((padTo (bp.map qtToInt) n).drop i) := by
  intro rem
  induction rem with
  | zero =>
    intro i hi
    rw [List.drop_eq_nil_of_le, List.drop_eq_nil_of_le]
    · rfl
    · rw [padTo_length _ _ (by simpa using hb)]; omega
    · rw [padTo_length _ _ (by simpa using ha)]; omega
  | succ rem ih =>
    intro i hi
    have hia : i < (padTo (ap.map qtToInt) n).length := by
      rw [padTo_length _ _ (by simpa using ha)]; omega
    have hib : i < (padTo (bp.map qtToInt) n).length := by
      rw [padTo_length _ _ (by simpa using hb)]; omega
    rw [List.drop_eq_getElem_cons hia, List.drop_eq_getElem_cons hib]
    rw [show vgeLoop ap bp i (rem + 1)
          = (if (if i < ap.length then qtToInt (ap.getD i "") else 0)
                ≠ (if i < bp.length then qtToInt (bp.getD i "") else 0)
             then decide ((if i < ap.length then qtToInt (ap.getD i "") else 0)
                > (if i < bp.length then qtToInt (bp.getD i "") else 0))
             else vgeLoop ap bp (i + 1) rem) from rfl]
    rw [segVal_eq_getD, segVal_eq_getD]
    rw [show (padTo (ap.map qtToInt) n)[i] = (padTo (ap.map qtToInt) n).getD i 0 from
          (List.getD_eq_getElem _ _ hia).symm,
        show (padTo (bp.map qtToInt) n)[i] = (padTo (bp.map qtToInt) n).getD i 0 from
          (List.getD_eq_getElem _ _ hib).symm]
    rw [padTo_getD, padTo_getD]
    rw [lexGE]
    by_cases h : (ap.map qtToInt).getD i 0 = (bp.map qtToInt).getD i 0
    · simp only [h, ite_true, ne_eq, not_true_eq_false, if_false]
      exact ih (i + 1) (by omega)
    · simp only [h, ite_false, ne_eq, not_false_eq_true, if_true]

/-- C4 — `versionGreaterOrEqual` agrees with the spec's description
(dot-separated integer segments compared left to right, missing trailing
segments treated as `0`, equal versions giving `true`), and in particular
`versionGE("1.10.0","1.9.9") = true`, `versionGE("1.2","1.2.0") = true`,
`versionGE("1","2") = false`. -/
theorem versionGreaterOrEqual_spec :
    (∀ a b : String, versionGreaterOrEqual a b = specVersionGE a b)
    ∧ versionGreaterOrEqual "1.10.0" "1.9.9" = true
    ∧ versionGreaterOrEqual "1.2" "1.2.0" = true
    ∧ versionGreaterOrEqual "1" "2" = false := by
  refine ⟨?_, by decide, by decide, by decide⟩
  intro a b
  have ha : (splitDot a).length ≤ max (splitDot a).length (splitDot b).length :=
    Nat.le_max_left _ _
  have hb : (splitDot b).length ≤ max (splitDot a).length (splitDot b).length :=
    Nat.le_max_right _ _
  have := vgeLoop_eq_lexGE (splitDot a) (splitDot b)
    (max (splitDot a).length (splitDot b).length) ha hb
    (max (splitDot a).length (splitDot b).length) 0 (by omega)
  simp only [List.drop_zero] at this
  show vgeLoop (splitDot a) (splitDot b) 0 _ = _
  rw [this]
  simp only [specVersionGE, qtSegments, List.length_map]

/-- The inner merge loop of the resolver:
`for dep in depList: if (!result.contains(dep)) result.append(dep)`. -/
def appendUnique (result : List String) (deps : List String) : List String :=
  deps.foldl (fun r d => if d ∈ r then r else r ++ [d]) result

/-- The `for (depVal : dependencies)` loop body of
`resolveDependenciesRecursive`, abstracted over the recursive call `rec`;
the state is `(result, processed)`. Empty dependency names are skipped
(`if (!depName.isEmpty())`). -/
def resolveDeps (rec : String → List String → List String × List String) :
    List String → List String × List String → List String × List String
  | [], st => st
  | depName :: rest, st =>
    if depName = "" then resolveDeps rec rest st
    else
      let r := rec depName st.2
      resolveDeps rec rest (appendUnique st.1 r.1, r.2)

/-- `PackageManagerLib::resolveDependenciesRecursive`. The C++ recursion
terminates because each call inserts its argument into the `processed` set
before recursing; the embedding makes that explicit with a fuel parameter
(`resolveFuel` below is provably enough, see the C5 theorem). Returns the
emitted dependency-first list together with the updated `processed` set. -/
def resolveDependenciesRecursive (allPackages : List Pkg) :
    Nat → String → List String → List String × List String
  | 0, _, processed => ([], processed)
  | fuel + 1, packageName, processed =>
    if packageName ∈ processed then ([], processed)
    else
      let processed1 := packageName :: processed
      match findPackageByName allPackages packageName with
      | none => ([], processed1)
      | some packageObj =>
        let st := resolveDeps (resolveDependenciesRecursive allPackages fuel)
          packageObj.dependencies ([], processed1)
        (st.1 ++ [packageName], st.2)

/-- Fuel that always suffices: the recursion can nest at most once per
catalog record (see the C5 theorem). -/
def resolveFuel (allPackages : List Pkg) : Nat :=
  allPackages.length + 1

/-- The `for (packageName : packageNames)` loop of `resolveDependencies`,
threading the shared `processed` set across the requested roots and merging
each root's output with the duplicate check. -/
def resolveRoots (rec : String → List String → List String × List String) :
    List String → List String × List String → List String × List String
  | [], st => st
  | n :: rest, st =>
    let r := rec n st.2
    resolveRoots rec rest (appendUnique st.1 r.1, r.2)

/-- `PackageManagerLib::resolveDependencies`, generalised over the fuel of
the recursive walk. When the fetched catalog is empty the requested names are
returned verbatim (`if (allPackages.isEmpty()) return packageNames`). -/
def resolveDependenciesWithFuel (fuel : Nat) (packageNames : List String)
    (allPackages : List Pkg) : List String :=
  if allPackages.isEmpty then packageNames
  else (resolveRoots (resolveDependenciesRecursive allPackages fuel)
    packageNames ([], [])).1

/-- `PackageManagerLib::resolveDependencies` with the canonical fuel. -/
def resolveDependencies (packageNames : List String) (allPackages : List Pkg) :
    List String :=
  resolveDependenciesWithFuel (resolveFuel allPackages) packageNames allPackages

/-- C9 — when the catalog fetch yields an empty package list,
`resolveDependencies` returns the requested names verbatim: no dependency
expansion, no deduplication, and no removal of names absent from the
catalog. -/
theorem resolveDependencies_emptyCatalog (packageNames : List String) :
    resolveDependencies packageNames [] = packageNames := by
  simp [resolveDependencies, resolveDependenciesWithFuel]

/-- The names occurring in the catalog. -/
def catalogNames (allPackages : List Pkg) : List String :=
  allPackages.map (·.name)

/-- A well-formed dependency graph: every dependency of every record is a
nonempty name that occurs in the catalog (the spec's "dependency graph" has
catalog records as nodes and their `dependencies` entries as edges). -/
def DepClosed (allPackages : List Pkg) : Prop :=
  ∀ p ∈ allPackages, ∀ d ∈ p.dependencies, d ≠ "" ∧ d ∈ catalogNames allPackages

/-- Acyclicity of the dependency graph, witnessed by a rank function that
strictly decreases along dependency edges (for a finite graph this is
equivalent to the absence of cycles). -/
def RankAcyclic (allPackages : List Pkg) (rank : String → Nat) : Prop :=
  ∀ p ∈ allPackages, ∀ d ∈ p.dependencies, rank d < rank p.name

/-- Number of catalog names not yet in the `processed` set; the measure that
shrinks at every nested call of the recursive resolver. -/
def unproc (allPackages : List Pkg) (processed : List String) : Nat :=
  ((catalogNames allPackages).filter (fun x => decide (x ∉ processed))).length

/-- `d` occurs strictly before `x` in `l` (it is in the part of `l` cut off at
the first occurrence of `x`). -/
def beforeIn (l : List String) (d x : String) : Prop :=
  d ∈ l.takeWhile (· != x)

theorem mem_catalogNames_iff_find (allPackages : List Pkg) (x : String) :
    x ∈ catalogNames allPackages ↔ ∃ p, findPackageByName allPackages x = some p := by
  constructor
  · intro hx
    rcases List.mem_map.mp hx with ⟨p, hp, hname⟩
    have : (allPackages.find? (fun q => q.name = x)).isSome := by
      rw [List.find?_isSome]
      exact ⟨p, hp, by simp [hname]⟩
    rcases Option.isSome_iff_exists.mp this with ⟨q, hq⟩
    exact ⟨q, hq⟩
  · rintro ⟨p, hp⟩
    have hmem : p ∈ allPackages := List.mem_of_find?_eq_some hp
    have hname : p.name = x := by
      have := List.find?_some hp
      simpa using this
    exact List.mem_map.mpr ⟨p, hmem, hname⟩

theorem filter_length_mono {α : Type} (l : List α) (p q : α → Bool)
    (h : ∀ x, q x = true → p x = true) :
    (l.filter q).length ≤ (l.filter p).length := by
  induction l with
  | nil => simp
  | cons a t ih =>
    by_cases hq : q a = true
    · simp [List.filter_cons, hq, h a hq]
      omega
    · simp only [List.filter_cons, Bool.not_eq_true] at hq ⊢
      rw [hq]
      by_cases hp : p a = true
      · simp [hp]; omega
      · simp only [Bool.not_eq_true] at hp
        rw [hp]
        simpa using ih

theorem filter_length_lt {α : Type} (l : List α) (p q : α → Bool)
    (h : ∀ x, q x = true → p x = true)
    (a : α) (ha : a ∈ l) (hpa : p a = true) (hqa : q a = false) :
    (l.filter q).length < (l.filter p).length := by
  induction l with
  | nil => simp at ha
  | cons b t ih =>
    rcases List.mem_cons.mp ha with rfl | hat
    · simp only [List.filter_cons, hpa, hqa, if_true]
      simp only [Bool.false_eq_true, if_false]
      have := filter_length_mono t p q h
      simp only [List.length_cons]
      omega
    · by_cases hq : q b = true
      · simp only [List.filter_cons, hq, h b hq, if_true, List.length_cons]
        have := ih hat
        omega
      · simp only [Bool.not_eq_true] at hq
        simp only [List.filter_cons, hq, Bool.false_eq_true, if_false]
        by_cases hp : p b = true
        · simp only [hp, if_true, List.length_cons]
          have := ih hat
          omega
        · simp only [Bool.not_eq_true] at hp
          rw [hp]
          simp only [Bool.false_eq_true, if_false]
          exact ih hat

theorem unproc_anti (allPackages : List Pkg) (P Q : List String)
    (h : ∀ x, x ∈ P → x ∈ Q) :
    unproc allPackages Q ≤ unproc allPackages P := by
  apply filter_length_mono
  intro x hx
  simp only [decide_eq_true_eq] at hx ⊢
  intro hxP
  exact hx (h x hxP)

theorem unproc_insert_lt (allPackages : List Pkg) (P : List String) (n : String)
    (hn : n ∈ catalogNames allPackages) (hnP : n ∉ P) :
    unproc allPackages (n :: P) < unproc allPackages P := by
  apply filter_length_lt _ _ _ _ n hn
  · simp [hnP]
  · simp
  · intro x hx
    simp only [decide_eq_true_eq, List.mem_cons] at hx ⊢
    intro hxP
    exact hx (Or.inr hxP)

theorem appendUnique_of_disjoint (a l : List String) (hnd : l.Nodup)
    (hdisj : ∀ x ∈ l, x ∉ a) : appendUnique a l = a ++ l := by
  induction l generalizing a with
  | nil => simp [appendUnique]
  | cons d t ih =>
    have hd : d ∉ a := hdisj d (by simp)
    show List.foldl _ a (d :: t) = _
    rw [List.foldl_cons]
    simp only [hd, if_false]
    have := ih (a ++ [d]) hnd.of_cons (by
      intro x hx hmem
      rcases List.mem_append.mp hmem with h1 | h2
      · exact hdisj x (by simp [hx]) h1
      · simp only [List.mem_singleton] at h2
        subst h2
        exact (List.nodup_cons.mp hnd).1 hx)
    calc appendUnique (a ++ [d]) t = (a ++ [d]) ++ t := this
      _ = a ++ (d :: t) := by simp

theorem takeWhile_append_of_mem {l₁ l₂ : List String} {x : String} (h : x ∈ l₁) :
    (l₁ ++ l₂).takeWhile (· != x) = l₁.takeWhile (· != x) := by
  induction l₁ with
  | nil => simp at h
  | cons a t ih =>
    by_cases hax : a = x
    · subst hax
      simp [List.takeWhile_cons]
    · have hx : x ∈ t := by
        rcases List.mem_cons.mp h with h1 | h2
        · exact absurd h1.symm hax
        · exact h2
      simp only [List.cons_append, List.takeWhile_cons]
      have : (a != x) = true := by simp [hax]
      rw [this]
      simp only [if_true]
      rw [ih hx]

theorem takeWhile_append_of_not_mem {l₁ l₂ : List String} {x : String} (h : x ∉ l₁) :
    (l₁ ++ l₂).takeWhile (· != x) = l₁ ++ l₂.takeWhile (· != x) := by
  induction l₁ with
  | nil => simp
  | cons a t ih =>
    have hax : a ≠ x := fun hax => h (by simp [hax])
    simp only [List.cons_append, List.takeWhile_cons]
    have : (a != x) = true := by simp [hax]
    rw [this]
    simp only [if_true]
    rw [ih (fun hx => h (by simp [hx]))]

/-- Invariants of the dependency-loop `resolveDeps`, generic in the recursive
call: the processed set grows, the accumulated result is preserved and stays
duplicate-free, every accumulated name is processed and has a catalog record,
new result entries were not previously processed, and every newly processed
name is either emitted or absent from the catalog. -/
theorem resolveDeps_facts (allPackages : List Pkg)
    (rec : String → List String → List String × List String)
    (hmono : ∀ n P, ∀ x ∈ P, x ∈ (rec n P).2)
    (hnd : ∀ n P, (rec n P).1.Nodup)
    (hfr : ∀ n P, ∀ x ∈ (rec n P).1,
      x ∉ P ∧ x ∈ (rec n P).2 ∧ ∃ p, findPackageByName allPackages x = some p)
    (hsub : ∀ n P, ∀ x ∈ (rec n P).2,
      x ∈ P ∨ x ∈ (rec n P).1 ∨ findPackageByName allPackages x = none) :
    ∀ (deps : List String) (st : List String × List String),
      st.1.Nodup → (∀ x ∈ st.1, x ∈ st.2) →
      (∀ x ∈ st.1, ∃ p, findPackageByName allPackages x = some p) →
      (∀ x ∈ st.2, x ∈ (resolveDeps rec deps st).2)
      ∧ (∀ x ∈ st.1, x ∈ (resolveDeps rec deps st).1)
      ∧ (resolveDeps rec deps st).1.Nodup
      ∧ (∀ x ∈ (resolveDeps rec deps st).1, x ∈ (resolveDeps rec deps st).2)
      ∧ (∀ x ∈ (resolveDeps rec deps st).1, x ∈ st.1 ∨ x ∉ st.2)
      ∧ (∀ x ∈ (resolveDeps rec deps st).1, ∃ p, findPackageByName allPackages x = some p)
      ∧ (∀ x ∈ (resolveDeps rec deps st).2,
          x ∈ st.2 ∨ x ∈ (resolveDeps rec deps st).1
          ∨ findPackageByName allPackages x = none) := by
  intro deps
  induction deps with
  | nil =>
    intro st h1 h2 h3
    exact ⟨fun x hx => hx, fun x hx => hx, h1, h2, fun x hx => Or.inl hx, h3,
      fun x hx => Or.inl hx⟩
  | cons d rest ih =>
    intro st h1 h2 h3
    by_cases hd : d = ""
    · show _ ∧ _
      rw [show resolveDeps rec (d :: rest) st = resolveDeps rec rest st by
        simp [resolveDeps, hd]]
      exact ih st h1 h2 h3
    · have hstep : resolveDeps rec (d :: rest) st
        = resolveDeps rec rest (appendUnique st.1 (rec d st.2).1, (rec d st.2).2) := by
        simp [resolveDeps, hd]
      have hem := hfr d st.2
      have hemnd := hnd d st.2
      have happ : appendUnique st.1 (rec d st.2).1 = st.1 ++ (rec d st.2).1 :=
        appendUnique_of_disjoint _ _ hemnd
          (fun x hx hmem => (hem x hx).1 (h2 x hmem))
      set st1 : List String × List String :=
        (appendUnique st.1 (rec d st.2).1, (rec d st.2).2) with hst1
      have h1' : st1.1.Nodup := by
        rw [hst1]; simp only [happ]
        rw [List.nodup_append]
        exact ⟨h1, hemnd, fun x hx hy => (hem x hy).1 (h2 x hx)⟩
      have h2' : ∀ x ∈ st1.1, x ∈ st1.2 := by
        rw [hst1]; simp only [happ]
        intro x hx
        rcases List.mem_append.mp hx with hx1 | hx2
        · exact hmono d st.2 x (h2 x hx1)
        · exact (hem x hx2).2.1
      have h3' : ∀ x ∈ st1.1, ∃ p, findPackageByName allPackages x = some p := by
        rw [hst1]; simp only [happ]
        intro x hx
        rcases List.mem_append.mp hx with hx1 | hx2
        · exact h3 x hx1
        · exact (hem x hx2).2.2
      obtain ⟨g1, g0, g2, g3, g4, g5, g6⟩ := ih st1 h1' h2' h3'
      rw [hstep]
      refine ⟨?_, ?_, g2, g3, ?_, g5, ?_⟩
      · intro x hx
        exact g1 x (hmono d st.2 x hx)
      · intro x hx
        apply g0
        rw [hst1]; simp only [happ]
        exact List.mem_append.mpr (Or.inl hx)
      · intro x hx
        rcases g4 x hx with hx1 | hx2
        · rw [hst1] at hx1; simp only [happ] at hx1
          rcases List.mem_append.mp hx1 with hm1 | hm2
          · exact Or.inl hm1
          · exact Or.inr ((hem x hm2).1)
        · right
          intro hmem
          exact hx2 (hmono d st.2 x hmem)
      · intro x hx
        rcases g6 x hx with hx1 | hx2 | hx3
        · rcases hsub d st.2 x hx1 with hy1 | hy2 | hy3
          · exact Or.inl hy1
          · refine Or.inr (Or.inl (g0 x ?_))
            rw [hst1]; simp only [happ]
            exact List.mem_append.mpr (Or.inr hy2)
          · exact Or.inr (Or.inr hy3)
        · exact Or.inr (Or.inl hx2)
        · exact Or.inr (Or.inr hx3)

/-- Core invariants of `resolveDependenciesRecursive` at any fuel: the
processed set grows, the emitted list is duplicate-free, every emitted name
was fresh, is processed afterwards and has a catalog record, and every newly
processed name is either emitted or absent from the catalog. -/
theorem resolveRec_facts (allPackages : List Pkg) :
    ∀ (fuel : Nat) (n : String) (P : List String),
      (∀ x ∈ P, x ∈ (resolveDependenciesRecursive allPackages fuel n P).2)
      ∧ (resolveDependenciesRecursive allPackages fuel n P).1.Nodup
      ∧ (∀ x ∈ (resolveDependenciesRecursive allPackages fuel n P).1,
          x ∉ P ∧ x ∈ (resolveDependenciesRecursive allPackages fuel n P).2
          ∧ ∃ p, findPackageByName allPackages x = some p)
      ∧ (∀ x ∈ (resolveDependenciesRecursive allPackages fuel n P).2,
          x ∈ P ∨ x ∈ (resolveDependenciesRecursive allPackages fuel n P).1
          ∨ findPackageByName allPackages x = none) := by
  intro fuel
  induction fuel with
  | zero =>
    intro n P
    refine ⟨fun x hx => hx, by simp [resolveDependenciesRecursive], ?_, ?_⟩
    · intro x hx
      simp [resolveDependenciesRecursive] at hx
    · intro x hx
      exact Or.inl hx
  | succ fuel ih =>
    intro n P
    by_cases hmem : n ∈ P
    · rw [show resolveDependenciesRecursive allPackages (fuel + 1) n P = ([], P) by
        simp [resolveDependenciesRecursive, hmem]]
      exact ⟨fun x hx => hx, by simp, by simp, fun x hx => Or.inl hx⟩
    · cases hfind : findPackageByName allPackages n with
      | none =>
        rw [show resolveDependenciesRecursive allPackages (fuel + 1) n P = ([], n :: P) by
          simp [resolveDependenciesRecursive, hmem, hfind]]
        refine ⟨fun x hx => List.mem_cons.mpr (Or.inr hx), by simp, by simp, ?_⟩
        intro x hx
        rcases List.mem_cons.mp hx with rfl | hxP
        · exact Or.inr (Or.inr hfind)
        · exact Or.inl hxP
      | some packageObj =>
        have hunfold : resolveDependenciesRecursive allPackages (fuel + 1) n P
            = ((resolveDeps (resolveDependenciesRecursive allPackages fuel)
                  packageObj.dependencies ([], n :: P)).1 ++ [n],
               (resolveDeps (resolveDependenciesRecursive allPackages fuel)
                  packageObj.dependencies ([], n :: P)).2) := by
          simp [resolveDependenciesRecursive, hmem, hfind]
        obtain ⟨g1, g0, g2, g3, g4, g5, g6⟩ :=
          resolveDeps_facts allPackages (resolveDependenciesRecursive allPackages fuel)
            (fun m Q => (ih m Q).1) (fun m Q => (ih m Q).2.1)
            (fun m Q => (ih m Q).2.2.1) (fun m Q => (ih m Q).2.2.2)
            packageObj.dependencies ([], n :: P) (by simp) (by simp) (by simp)
        set st := resolveDeps (resolveDependenciesRecursive allPackages fuel)
          packageObj.dependencies ([], n :: P) with hst
        have hnP : n ∈ st.2 := g1 n (List.mem_cons_self n P)
        have hfreshn : n ∉ st.1 := by
          intro hx
          rcases g4 n hx with hx1 | hx2
          · simp at hx1
          · exact hx2 (List.mem_cons_self n P)
        rw [hunfold]
        refine ⟨?_, ?_, ?_, ?_⟩
        · intro x hx
          exact g1 x (List.mem_cons.mpr (Or.inr hx))
        · simp only [List.nodup_append, List.nodup_cons, List.nodup_nil]
          exact ⟨g2, by simp, fun x hx hy => by
            simp only [List.mem_singleton] at hy
            subst hy
            exact hfreshn hx⟩
        · intro x hx
          rcases List.mem_append.mp hx with hx1 | hx2
          · refine ⟨?_, g3 x hx1, g5 x hx1⟩
            intro hxP
            rcases g4 x hx1 with hy1 | hy2
            · simp at hy1
            · exact hy2 (List.mem_cons.mpr (Or.inr hxP))
          · simp only [List.mem_singleton] at hx2
            subst hx2
            exact ⟨hmem, hnP, ⟨packageObj, hfind⟩⟩
        · intro x hx
          rcases g6 x hx with hx1 | hx2 | hx3
          · rcases List.mem_cons.mp hx1 with rfl | hxP
            · exact Or.inr (Or.inl (List.mem_append.mpr (Or.inr (by simp))))
            · exact Or.inl hxP
          · exact Or.inr (Or.inl (List.mem_append.mpr (Or.inl hx2)))
          · exact Or.inr (Or.inr hx3)

/-- Every name emitted while resolving `n` is `n` itself or lies strictly
below `n` in any rank function that decreases along dependency edges. -/
theorem resolveRec_rank (allPackages : List Pkg) (rank : String → Nat)
    (hrank : RankAcyclic allPackages rank) :
    ∀ (fuel : Nat) (n : String) (P : List String),
      ∀ x ∈ (resolveDependenciesRecursive allPackages fuel n P).1,
        x = n ∨ rank x < rank n := by
  intro fuel
  induction fuel with
  | zero =>
    intro n P x hx
    simp [resolveDependenciesRecursive] at hx
  | succ fuel ih =>
    intro n P x hx
    by_cases hmem : n ∈ P
    · rw [show resolveDependenciesRecursive allPackages (fuel + 1) n P = ([], P) by
        simp [resolveDependenciesRecursive, hmem]] at hx
      simp at hx
    · cases hfind : findPackageByName allPackages n with
      | none =>
        rw [show resolveDependenciesRecursive allPackages (fuel + 1) n P = ([], n :: P) by
          simp [resolveDependenciesRecursive, hmem, hfind]] at hx
        simp at hx
      | some packageObj =>
        have hpmem : packageObj ∈ allPackages := List.mem_of_find?_eq_some hfind
        have hpname : packageObj.name = n := by
          have := List.find?_some hfind
          simpa using this
        have hdeps : ∀ d ∈ packageObj.dependencies, rank d < rank n := by
          intro d hd
          have := hrank packageObj hpmem d hd
          rwa [hpname] at this
        rw [show resolveDependenciesRecursive allPackages (fuel + 1) n P
            = ((resolveDeps (resolveDependenciesRecursive allPackages fuel)
                  packageObj.dependencies ([], n :: P)).1 ++ [n],
               (resolveDeps (resolveDependenciesRecursive allPackages fuel)
                  packageObj.dependencies ([], n :: P)).2) by
          simp [resolveDependenciesRecursive, hmem, hfind]] at hx
        simp only [List.mem_append, List.mem_singleton] at hx
        rcases hx with hx1 | rfl
        · right
          -- fold invariant: every accumulated name ranks strictly below n
          have inner : ∀ (deps : List String) (st : List String × List String),
              (∀ d ∈ deps, rank d < rank n) →
              (∀ y ∈ st.1, rank y < rank n) →
              ∀ y ∈ (resolveDeps (resolveDependenciesRecursive allPackages fuel) deps st).1,
                rank y < rank n := by
            intro deps
            induction deps with
            | nil => intro st _ hst y hy; exact hst y hy
            | cons d rest ihd =>
              intro st hdr hst y hy
              by_cases hd : d = ""
              · rw [show resolveDeps (resolveDependenciesRecursive allPackages fuel)
                    (d :: rest) st
                    = resolveDeps (resolveDependenciesRecursive allPackages fuel) rest st by
                  simp [resolveDeps, hd]] at hy
                exact ihd st (fun e he => hdr e (by simp [he])) hst y hy
              · rw [show resolveDeps (resolveDependenciesRecursive allPackages fuel)
                    (d :: rest) st
                    = resolveDeps (resolveDependenciesRecursive allPackages fuel) rest
                        (appendUnique st.1
                          (resolveDependenciesRecursive allPackages fuel d st.2).1,
                         (resolveDependenciesRecursive allPackages fuel d st.2).2) by
                  simp [resolveDeps, hd]] at hy
                refine ihd _ (fun e he => hdr e (by simp [he])) ?_ y hy
                intro z hz
                have hz' := hz
                -- membership in appendUnique implies membership in one side
                have hsplit : ∀ (l a : List String) (w : String),
                    w ∈ appendUnique a l → w ∈ a ∨ w ∈ l := by
                  intro l
                  induction l with
                  | nil => intro a w hw; exact Or.inl hw
                  | cons e t ihe =>
                    intro a w hw
                    show w ∈ a ∨ w ∈ e :: t
                    rw [show appendUnique a (e :: t)
                        = appendUnique (if e ∈ a then a else a ++ [e]) t from rfl] at hw
                    rcases ihe _ w hw with h1 | h2
                    · by_cases he : e ∈ a
                      · rw [if_pos he] at h1
                        exact Or.inl h1
                      · rw [if_neg he] at h1
                        rcases List.mem_append.mp h1 with h3 | h4
                        · exact Or.inl h3
                        · simp only [List.mem_singleton] at h4
                          exact Or.inr (by simp [h4])
                    · exact Or.inr (by simp [h2])
                rcases hsplit _ _ _ hz' with h1 | h2
                · exact hst z h1
                · rcases ih d st.2 z h2 with rfl | hlt
                  · exact hdr z (by simp)
                  · exact lt_trans hlt (hdr d (by simp))
          exact inner packageObj.dependencies ([], n :: P) hdeps (by simp) x hx1
        · exact Or.inl rfl

/-- With at least one unit of fuel, resolving `n` marks `n` as processed. -/
theorem resolveRec_marks (allPackages : List Pkg) :
    ∀ (fuel : Nat) (n : String) (P : List String), 1 ≤ fuel →
      n ∈ (resolveDependenciesRecursive allPackages fuel n P).2 := by
  intro fuel n P hfuel
  cases fuel with
  | zero => omega
  | succ fuel =>
    by_cases hmem : n ∈ P
    · rw [show resolveDependenciesRecursive allPackages (fuel + 1) n P = ([], P) by
        simp [resolveDependenciesRecursive, hmem]]
      exact hmem
    · cases hfind : findPackageByName allPackages n with
      | none =>
        rw [show resolveDependenciesRecursive allPackages (fuel + 1) n P = ([], n :: P) by
          simp [resolveDependenciesRecursive, hmem, hfind]]
        simp
      | some packageObj =>
        rw [show resolveDependenciesRecursive allPackages (fuel + 1) n P
            = ((resolveDeps (resolveDependenciesRecursive allPackages fuel)
                  packageObj.dependencies ([], n :: P)).1 ++ [n],
               (resolveDeps (resolveDependenciesRecursive allPackages fuel)
                  packageObj.dependencies ([], n :: P)).2) by
          simp [resolveDependenciesRecursive, hmem, hfind]]
        obtain ⟨g1, _⟩ :=
          resolveDeps_facts allPackages (resolveDependenciesRecursive allPackages fuel)
            (fun m Q => (resolveRec_facts allPackages fuel m Q).1)
            (fun m Q => (resolveRec_facts allPackages fuel m Q).2.1)
            (fun m Q => (resolveRec_facts allPackages fuel m Q).2.2.1)
            (fun m Q => (resolveRec_facts allPackages fuel m Q).2.2.2)
            packageObj.dependencies ([], n :: P) (by simp) (by simp) (by simp)
        exact g1 n (List.mem_cons_self n P)

/-- Fold-level invariant for the dependency-before property: while walking the
dependency list of `n` (whose record was found and whose baseline processed
set is `n :: P`), every accumulated name has all its catalog dependencies
either in the baseline or strictly earlier in the accumulated list. -/
theorem resolveDeps_depBefore (allPackages : List Pkg) (rank : String → Nat)
    (hclosed : DepClosed allPackages) (hrank : RankAcyclic allPackages rank)
    (fuel : Nat) (n : String) (P : List String)
    (ihDB : ∀ (n' : String) (P' : List String), unproc allPackages P' < fuel →
      ∀ x ∈ (resolveDependenciesRecursive allPackages fuel n' P').1,
      ∀ p, findPackageByName allPackages x = some p →
      ∀ d ∈ p.dependencies,
        d ∈ P' ∨ beforeIn (resolveDependenciesRecursive allPackages fuel n' P').1 d x) :
    ∀ (deps : List String) (st : List String × List String),
      (∀ d ∈ deps, rank d < rank n) →
      (∀ x ∈ n :: P, x ∈ st.2) →
      st.1.Nodup →
      (∀ x ∈ st.1, x ∈ st.2) →
      (∀ x ∈ st.1, x ∉ n :: P) →
      (∀ x ∈ st.1, rank x < rank n) →
      (∀ x ∈ st.2, x ∈ n :: P ∨ x ∈ st.1 ∨ findPackageByName allPackages x = none) →
      unproc allPackages st.2 < fuel →
      (∀ x ∈ st.1, ∀ p, findPackageByName allPackages x = some p →
        ∀ d ∈ p.dependencies, d ∈ n :: P ∨ beforeIn st.1 d x) →
      (∀ x ∈ st.2, x ∈ (resolveDeps (resolveDependenciesRecursive allPackages fuel) deps st).2)
      ∧ (resolveDeps (resolveDependenciesRecursive allPackages fuel) deps st).1.Nodup
      ∧ (∀ x ∈ (resolveDeps (resolveDependenciesRecursive allPackages fuel) deps st).1,
          x ∈ (resolveDeps (resolveDependenciesRecursive allPackages fuel) deps st).2)
      ∧ (∀ x ∈ (resolveDeps (resolveDependenciesRecursive allPackages fuel) deps st).1,
          x ∉ n :: P)
      ∧ (∀ x ∈ (resolveDeps (resolveDependenciesRecursive allPackages fuel) deps st).1,
          rank x < rank n)
      ∧ (∀ x ∈ (resolveDeps (resolveDependenciesRecursive allPackages fuel) deps st).2,
          x ∈ n :: P
          ∨ x ∈ (resolveDeps (resolveDependenciesRecursive allPackages fuel) deps st).1
          ∨ findPackageByName allPackages x = none)
      ∧ unproc allPackages
          (resolveDeps (resolveDependenciesRecursive allPackages fuel) deps st).2 < fuel
      ∧ (∀ x ∈ (resolveDeps (resolveDependenciesRecursive allPackages fuel) deps st).1,
          ∀ p, findPackageByName allPackages x = some p →
          ∀ d ∈ p.dependencies, d ∈ n :: P
            ∨ beforeIn (resolveDeps (resolveDependenciesRecursive allPackages fuel) deps st).1 d x)
      ∧ (∀ d ∈ deps, d = ""
          ∨ d ∈ (resolveDeps (resolveDependenciesRecursive allPackages fuel) deps st).2) := by
  intro deps
  induction deps with
  | nil =>
    intro st _ hA1 hA2 hA3 hA4 hA5 hA7 hA8 hA9
    exact ⟨fun x hx => hx, hA2, hA3, hA4, hA5, hA7, hA8, hA9, by simp⟩
  | cons d rest ihd =>
    intro st hdr hA1 hA2 hA3 hA4 hA5 hA7 hA8 hA9
    by_cases hd : d = ""
    · rw [show resolveDeps (resolveDependenciesRecursive allPackages fuel) (d :: rest) st
        = resolveDeps (resolveDependenciesRecursive allPackages fuel) rest st by
        simp [resolveDeps, hd]]
      obtain ⟨g1, g2, g3, g4, g5, g6, g7, g8, g9⟩ :=
        ihd st (fun e he => hdr e (by simp [he])) hA1 hA2 hA3 hA4 hA5 hA7 hA8 hA9
      refine ⟨g1, g2, g3, g4, g5, g6, g7, g8, ?_⟩
      intro e he
      rcases List.mem_cons.mp he with rfl | he'
      · exact Or.inl hd
      · exact g9 e he'
    · have hstep : resolveDeps (resolveDependenciesRecursive allPackages fuel) (d :: rest) st
        = resolveDeps (resolveDependenciesRecursive allPackages fuel) rest
            (appendUnique st.1 (resolveDependenciesRecursive allPackages fuel d st.2).1,
             (resolveDependenciesRecursive allPackages fuel d st.2).2) := by
        simp [resolveDeps, hd]
      set em := resolveDependenciesRecursive allPackages fuel d st.2 with hemdef
      obtain ⟨f1, f2, f3, f4⟩ := resolveRec_facts allPackages fuel d st.2
      have happ : appendUnique st.1 em.1 = st.1 ++ em.1 :=
        appendUnique_of_disjoint _ _ f2 (fun x hx hmem => (f3 x hx).1 (hA3 x hmem))
      have hfuel1 : 1 ≤ fuel := by omega
      have hdn : rank d < rank n := hdr d (by simp)
      have hrankem := resolveRec_rank allPackages rank hrank fuel d st.2
      have hdbem := ihDB d st.2 hA8
      set st1 : List String × List String := (appendUnique st.1 em.1, em.2) with hst1
      have hB1 : ∀ x ∈ n :: P, x ∈ st1.2 := fun x hx => f1 x (hA1 x hx)
      have hB2 : st1.1.Nodup := by
        rw [hst1]; simp only [happ]
        rw [List.nodup_append]
        exact ⟨hA2, f2, fun x hx hy => (f3 x hy).1 (hA3 x hx)⟩
      have hB3 : ∀ x ∈ st1.1, x ∈ st1.2 := by
        rw [hst1]; simp only [happ]
        intro x hx
        rcases List.mem_append.mp hx with h1 | h2
        · exact f1 x (hA3 x h1)
        · exact (f3 x h2).2.1
      have hB4 : ∀ x ∈ st1.1, x ∉ n :: P := by
        rw [hst1]; simp only [happ]
        intro x hx
        rcases List.mem_append.mp hx with h1 | h2
        · exact hA4 x h1
        · exact fun hc => (f3 x h2).1 (hA1 x hc)
      have hB5 : ∀ x ∈ st1.1, rank x < rank n := by
        rw [hst1]; simp only [happ]
        intro x hx
        rcases List.mem_append.mp hx with h1 | h2
        · exact hA5 x h1
        · rcases hrankem x h2 with rfl | hlt
          · exact hdn
          · exact lt_trans hlt hdn
      have hB7 : ∀ x ∈ st1.2, x ∈ n :: P ∨ x ∈ st1.1 ∨ findPackageByName allPackages x = none := by
        intro x hx
        rcases f4 x hx with h1 | h2 | h3
        · rcases hA7 x h1 with h4 | h5 | h6
          · exact Or.inl h4
          · refine Or.inr (Or.inl ?_)
            rw [hst1]; simp only [happ]
            exact List.mem_append.mpr (Or.inl h5)
          · exact Or.inr (Or.inr h6)
        · refine Or.inr (Or.inl ?_)
          rw [hst1]; simp only [happ]
          exact List.mem_append.mpr (Or.inr h2)
        · exact Or.inr (Or.inr h3)
      have hB8 : unproc allPackages st1.2 < fuel :=
        lt_of_le_of_lt (unproc_anti allPackages st.2 st1.2 f1) hA8
      have hB9 : ∀ x ∈ st1.1, ∀ p, findPackageByName allPackages x = some p →
          ∀ e ∈ p.dependencies, e ∈ n :: P ∨ beforeIn st1.1 e x := by
        rw [hst1]; simp only [happ]
        intro x hx p hp e he
        have hpmem : p ∈ allPackages := List.mem_of_find?_eq_some hp
        have hpname : p.name = x := by
          have := List.find?_some hp
          simpa using this
        have hecat : e ≠ "" ∧ e ∈ catalogNames allPackages := hclosed p hpmem e he
        rcases List.mem_append.mp hx with h1 | h2
        · rcases hA9 x h1 p hp e he with h3 | h4
          · exact Or.inl h3
          · right
            unfold beforeIn at h4 ⊢
            rw [takeWhile_append_of_mem h1]
            exact h4
        · have hxfresh : x ∉ st.1 := fun hc => (f3 x h2).1 (hA3 x hc)
          rcases hdbem x h2 p hp e he with h3 | h4
          · -- the dependency was already processed before this subcall
            rcases hA7 e h3 with h5 | h6 | h7
            · exact Or.inl h5
            · right
              unfold beforeIn
              rw [takeWhile_append_of_not_mem hxfresh]
              exact List.mem_append.mpr (Or.inl h6)
            · exfalso
              rcases (mem_catalogNames_iff_find allPackages e).mp hecat.2 with ⟨q, hq⟩
              rw [hq] at h7
              exact Option.noConfusion h7
          · right
            unfold beforeIn at h4 ⊢
            rw [takeWhile_append_of_not_mem hxfresh]
            exact List.mem_append.mpr (Or.inr h4)
      obtain ⟨g1, g2, g3, g4, g5, g6, g7, g8, g9⟩ :=
        ihd st1 (fun e he => hdr e (by simp [he])) hB1 hB2 hB3 hB4 hB5 hB7 hB8 hB9
      rw [hstep]
      refine ⟨?_, g2, g3, g4, g5, g6, g7, g8, ?_⟩
      · intro x hx
        exact g1 x (f1 x hx)
      · intro e he
        rcases List.mem_cons.mp he with rfl | he'
        · right
          exact g1 e (resolveRec_marks allPackages fuel e st.2 hfuel1)
        · exact g9 e he'

/-- Dependency-before property of one recursive resolution relative to its
incoming processed set: with enough fuel, every emitted name's catalog
dependencies are either already processed or emitted strictly earlier. -/
theorem resolveRec_depBefore (allPackages : List Pkg) (rank : String → Nat)
    (hclosed : DepClosed allPackages) (hrank : RankAcyclic allPackages rank) :
    ∀ (fuel : Nat) (n : String) (P : List String),
      unproc allPackages P < fuel →
      ∀ x ∈ (resolveDependenciesRecursive allPackages fuel n P).1,
      ∀ p, findPackageByName allPackages x = some p →
      ∀ d ∈ p.dependencies,
        d ∈ P ∨ beforeIn (resolveDependenciesRecursive allPackages fuel n P).1 d x := by
  intro fuel
  induction fuel with
  | zero =>
    intro n P hP
    omega
  | succ fuel ih =>
    intro n P hP x hx p hp d hd
    by_cases hmem : n ∈ P
    · rw [show resolveDependenciesRecursive allPackages (fuel + 1) n P = ([], P) by
        simp [resolveDependenciesRecursive, hmem]] at hx
      simp at hx
    · cases hfind : findPackageByName allPackages n with
      | none =>
        rw [show resolveDependenciesRecursive allPackages (fuel + 1) n P = ([], n :: P) by
          simp [resolveDependenciesRecursive, hmem, hfind]] at hx
        simp at hx
      | some packageObj =>
        have hpmem0 : packageObj ∈ allPackages := List.mem_of_find?_eq_some hfind
        have hpname0 : packageObj.name = n := by
          have := List.find?_some hfind
          simpa using this
        have hncat : n ∈ catalogNames allPackages :=
          (mem_catalogNames_iff_find allPackages n).mpr ⟨packageObj, hfind⟩
        have hudrop : unproc allPackages (n :: P) < fuel := by
          have h1 := unproc_insert_lt allPackages P n hncat hmem
          omega
        have hdeps0 : ∀ e ∈ packageObj.dependencies, rank e < rank n := by
          intro e he
          have := hrank packageObj hpmem0 e he
          rwa [hpname0] at this
        have hunfold : resolveDependenciesRecursive allPackages (fuel + 1) n P
            = ((resolveDeps (resolveDependenciesRecursive allPackages fuel)
                  packageObj.dependencies ([], n :: P)).1 ++ [n],
               (resolveDeps (resolveDependenciesRecursive allPackages fuel)
                  packageObj.dependencies ([], n :: P)).2) := by
          simp [resolveDependenciesRecursive, hmem, hfind]
        obtain ⟨g1, g2, g3, g4, g5, g6, g7, g8, g9⟩ :=
          resolveDeps_depBefore allPackages rank hclosed hrank fuel n P ih
            packageObj.dependencies ([], n :: P) hdeps0
            (by intro x hx; exact hx) (by simp) (by simp) (by simp) (by simp)
            (fun x hx => Or.inl hx) hudrop (by simp)
        set stk := resolveDeps (resolveDependenciesRecursive allPackages fuel)
          packageObj.dependencies ([], n :: P) with hstk
        have hnfresh : n ∉ stk.1 := fun hc => g4 n hc (by simp)
        rw [hunfold] at hx ⊢
        simp only [List.mem_append, List.mem_singleton] at hx
        have hpm : p ∈ allPackages := List.mem_of_find?_eq_some hp
        have hpn : p.name = x := by
          have := List.find?_some hp
          simpa using this
        have hdne : d ≠ "" ∧ d ∈ catalogNames allPackages := hclosed p hpm d hd
        rcases hx with hx1 | rfl
        · -- x was emitted while walking n's dependencies
          have hrx : rank x < rank n := g5 x hx1
          have hdltx : rank d < rank x := by
            have := hrank p hpm d hd
            rwa [hpn] at this
          rcases g8 x hx1 p hp d hd with h1 | h2
          · rcases List.mem_cons.mp h1 with rfl | h3
            · omega
            · exact Or.inl h3
          · right
            unfold beforeIn at h2 ⊢
            rw [takeWhile_append_of_mem hx1]
            exact h2
        · -- x = n itself
          have hpeq : p = packageObj := by
            rw [hp] at hfind
            exact Option.some.inj hfind
          subst hpeq
          have hddone : d = "" ∨ d ∈ stk.2 := g9 d hd
          rcases hddone with h1 | h2
          · exact absurd h1 hdne.1
          · rcases g6 d h2 with h3 | h4 | h5
            · rcases List.mem_cons.mp h3 with rfl | h6
              · have := hdeps0 d hd
                omega
              · exact Or.inl h6
            · right
              unfold beforeIn
              rw [takeWhile_append_of_not_mem hnfresh]
              refine List.mem_append.mpr (Or.inl h4)
            · exfalso
              rcases (mem_catalogNames_iff_find allPackages d).mp hdne.2 with ⟨q, hq⟩
              rw [hq] at h5
              exact Option.noConfusion h5

/-- The roots loop without the duplicate check: each requested root
contributes its newly-resolved names by plain concatenation, in request
order ("first-seen order across all requested roots"). -/
def resolveRootsConcat (rec : String → List String → List String × List String) :
    List String → List String × List String → List String × List String
  | [], st => st
  | n :: rest, st =>
    let r := rec n st.2
    resolveRootsConcat rec rest (st.1 ++ r.1, r.2)

/-- The dependency resolution order described by the spec: the in-order
concatenation, over the requested roots, of each root's newly-seen
dependency-first expansion. -/
def resolveFirstSeen (packageNames : List String) (allPackages : List Pkg) : List String :=
  (resolveRootsConcat
    (resolveDependenciesRecursive allPackages (resolveFuel allPackages))
    packageNames ([], [])).1

/-- Invariants of the roots loop of `resolveDependencies`: the accumulated
result stays duplicate-free, every processed catalog name has been emitted,
dependencies always precede dependents, every requested catalog root gets
emitted, and the duplicate check never fires (the loop equals plain
concatenation of the per-root expansions). -/
theorem resolveRoots_invariant (allPackages : List Pkg) (rank : String → Nat)
    (hclosed : DepClosed allPackages) (hrank : RankAcyclic allPackages rank)
    (fuel : Nat) :
    ∀ (names : List String) (st : List String × List String),
      st.1.Nodup →
      (∀ x ∈ st.1, x ∈ st.2) →
      (∀ x ∈ st.2, x ∈ st.1 ∨ findPackageByName allPackages x = none) →
      unproc allPackages st.2 < fuel →
      (∀ x ∈ st.1, ∀ p, findPackageByName allPackages x = some p →
        ∀ d ∈ p.dependencies, beforeIn st.1 d x) →
      (resolveRoots (resolveDependenciesRecursive allPackages fuel) names st).1.Nodup
      ∧ (∀ x ∈ st.1,
          x ∈ (resolveRoots (resolveDependenciesRecursive allPackages fuel) names st).1)
      ∧ (∀ x ∈ (resolveRoots (resolveDependenciesRecursive allPackages fuel) names st).1,
          ∀ p, findPackageByName allPackages x = some p →
          ∀ d ∈ p.dependencies,
            beforeIn (resolveRoots (resolveDependenciesRecursive allPackages fuel) names st).1 d x)
      ∧ (∀ r ∈ names, r ∈ catalogNames allPackages →
          r ∈ (resolveRoots (resolveDependenciesRecursive allPackages fuel) names st).1)
      ∧ resolveRoots (resolveDependenciesRecursive allPackages fuel) names st
          = resolveRootsConcat (resolveDependenciesRecursive allPackages fuel) names st := by
  intro names
  induction names with
  | nil =>
    intro st h1 h2 h3 h4 h5
    exact ⟨h1, fun x hx => hx, h5, by simp, rfl⟩
  | cons n rest ih =>
    intro st h1 h2 h3 h4 h5
    set em := resolveDependenciesRecursive allPackages fuel n st.2 with hemdef
    obtain ⟨f1, f2, f3, f4⟩ := resolveRec_facts allPackages fuel n st.2
    have happ : appendUnique st.1 em.1 = st.1 ++ em.1 :=
      appendUnique_of_disjoint _ _ f2 (fun x hx hmem => (f3 x hx).1 (h2 x hmem))
    have hstep : resolveRoots (resolveDependenciesRecursive allPackages fuel) (n :: rest) st
        = resolveRoots (resolveDependenciesRecursive allPackages fuel) rest
            (appendUnique st.1 em.1, em.2) := rfl
    have hstepc : resolveRootsConcat (resolveDependenciesRecursive allPackages fuel)
          (n :: rest) st
        = resolveRootsConcat (resolveDependenciesRecursive allPackages fuel) rest
            (st.1 ++ em.1, em.2) := rfl
    have hdb := resolveRec_depBefore allPackages rank hclosed hrank fuel n st.2 h4
    set st1 : List String × List String := (appendUnique st.1 em.1, em.2) with hst1
    have hB1 : st1.1.Nodup := by
      rw [hst1]; simp only [happ]
      rw [List.nodup_append]
      exact ⟨h1, f2, fun x hx hy => (f3 x hy).1 (h2 x hx)⟩
    have hB2 : ∀ x ∈ st1.1, x ∈ st1.2 := by
      rw [hst1]; simp only [happ]
      intro x hx
      rcases List.mem_append.mp hx with hx1 | hx2
      · exact f1 x (h2 x hx1)
      · exact (f3 x hx2).2.1
    have hB3 : ∀ x ∈ st1.2, x ∈ st1.1 ∨ findPackageByName allPackages x = none := by
      intro x hx
      rcases f4 x hx with h6 | h7 | h8
      · rcases h3 x h6 with h9 | h10
        · refine Or.inl ?_
          rw [hst1]; simp only [happ]
          exact List.mem_append.mpr (Or.inl h9)
        · exact Or.inr h10
      · refine Or.inl ?_
        rw [hst1]; simp only [happ]
        exact List.mem_append.mpr (Or.inr h7)
      · exact Or.inr h8
    have hB4 : unproc allPackages st1.2 < fuel :=
      lt_of_le_of_lt (unproc_anti allPackages st.2 st1.2 f1) h4
    have hB5 : ∀ x ∈ st1.1, ∀ p, findPackageByName allPackages x = some p →
        ∀ d ∈ p.dependencies, beforeIn st1.1 d x := by
      rw [hst1]; simp only [happ]
      intro x hx p hp d hd
      have hpm : p ∈ allPackages := List.mem_of_find?_eq_some hp
      have hdcat : d ≠ "" ∧ d ∈ catalogNames allPackages := hclosed p hpm d hd
      rcases List.mem_append.mp hx with hx1 | hx2
      · have := h5 x hx1 p hp d hd
        unfold beforeIn at this ⊢
        rw [takeWhile_append_of_mem hx1]
        exact this
      · have hxfresh : x ∉ st.1 := fun hc => (f3 x hx2).1 (h2 x hc)
        rcases hdb x hx2 p hp d hd with h6 | h7
        · rcases h3 d h6 with h8 | h9
          · unfold beforeIn
            rw [takeWhile_append_of_not_mem hxfresh]
            exact List.mem_append.mpr (Or.inl h8)
          · exfalso
            rcases (mem_catalogNames_iff_find allPackages d).mp hdcat.2 with ⟨q, hq⟩
            rw [hq] at h9
            exact Option.noConfusion h9
        · unfold beforeIn at h7 ⊢
          rw [takeWhile_append_of_not_mem hxfresh]
          exact List.mem_append.mpr (Or.inr h7)
    obtain ⟨g1, g2, g3, g4, g5⟩ := ih st1 hB1 hB2 hB3 hB4 hB5
    rw [hstep, hstepc]
    refine ⟨g1, ?_, g3, ?_, ?_⟩
    · intro x hx
      apply g2
      rw [hst1]; simp only [happ]
      exact List.mem_append.mpr (Or.inl hx)
    · intro r hr hrcat
      rcases List.mem_cons.mp hr with rfl | hr'
      · have hf1 : 1 ≤ fuel := by omega
        have hmark : r ∈ em.2 := resolveRec_marks allPackages fuel r st.2 hf1
        rcases hB3 r hmark with h6 | h7
        · exact g2 r h6
        · exfalso
          rcases (mem_catalogNames_iff_find allPackages r).mp hrcat with ⟨q, hq⟩
          rw [hq] at h7
          exact Option.noConfusion h7
      · exact g4 r hr' hrcat
    · rw [g5]
      congr 1
      rw [hst1]; simp only [happ]

/-- C1 — for every acyclic, well-formed dependency graph and every request of
names present in the catalog, `resolveDependencies` returns an ordering in
which every dependency of an emitted package `x` appears strictly before `x`
(`beforeIn`), with no duplicate names, containing every requested root, and
equal to the in-order concatenation of each root's newly-seen expansion
("first-seen order across the requested roots"). -/
theorem resolveDependencies_ordered (allPackages : List Pkg) (packageNames : List String)
    (rank : String → Nat)
    (hne : allPackages ≠ [])
    (hclosed : DepClosed allPackages)
    (hrank : RankAcyclic allPackages rank)
    (hroots : ∀ r ∈ packageNames, r ∈ catalogNames allPackages) :
    (resolveDependencies packageNames allPackages).Nodup
    ∧ (∀ x ∈ resolveDependencies packageNames allPackages,
        ∀ p, findPackageByName allPackages x = some p →
        ∀ d ∈ p.dependencies,
          beforeIn (resolveDependencies packageNames allPackages) d x)
    ∧ (∀ r ∈ packageNames, r ∈ resolveDependencies packageNames allPackages)
    ∧ resolveDependencies packageNames allPackages
        = resolveFirstSeen packageNames allPackages := by
  have hne' : allPackages.isEmpty = false := by
    cases allPackages with
    | nil => exact absurd rfl hne
    | cons a t => rfl
  have hfuel : unproc allPackages [] < resolveFuel allPackages := by
    unfold unproc resolveFuel
    have h1 : ((catalogNames allPackages).filter
        (fun x => decide (x ∉ ([] : List String)))).length
        ≤ (catalogNames allPackages).length := List.length_filter_le _ _
    have h2 : (catalogNames allPackages).length = allPackages.length := by
      simp [catalogNames]
    omega
  obtain ⟨g1, g2, g3, g4, g5⟩ :=
    resolveRoots_invariant allPackages rank hclosed hrank (resolveFuel allPackages)
      packageNames ([], []) (by simp) (by simp) (by simp) hfuel (by simp)
  have hdef : resolveDependencies packageNames allPackages
      = (resolveRoots
          (resolveDependenciesRecursive allPackages (resolveFuel allPackages))
          packageNames ([], [])).1 := by
    unfold resolveDependencies resolveDependenciesWithFuel
    rw [hne']
    simp
  refine ⟨by rw [hdef]; exact g1, by rw [hdef]; exact g3, ?_, ?_⟩
  · intro r hr
    rw [hdef]
    exact g4 r hr (hroots r hr)
  · rw [hdef]
    unfold resolveFirstSeen
    rw [g5]

/-- Witness catalog for C1: `A` depends on `B`. -/
def wcatC1 : List Pkg :=
  [{ name := "A", dependencies := ["B"], packageFile := "a.lgx" },
   { name := "B", dependencies := [], packageFile := "b.lgx" }]

/-- Witness rank function for C1. -/
def wrankC1 : String → Nat := fun s => if s = "A" then 1 else 0

/-- Witness for C1 at the concrete catalog `wcatC1` and request `["A"]`. -/
theorem resolveDependencies_ordered_witness :
    (wcatC1 ≠ [] ∧ DepClosed wcatC1 ∧ RankAcyclic wcatC1 wrankC1
      ∧ (∀ r ∈ ["A"], r ∈ catalogNames wcatC1))
    ∧ ((resolveDependencies ["A"] wcatC1).Nodup
      ∧ (∀ x ∈ resolveDependencies ["A"] wcatC1,
          ∀ p, findPackageByName wcatC1 x = some p →
          ∀ d ∈ p.dependencies, beforeIn (resolveDependencies ["A"] wcatC1) d x)
      ∧ (∀ r ∈ ["A"], r ∈ resolveDependencies ["A"] wcatC1)
      ∧ resolveDependencies ["A"] wcatC1 = resolveFirstSeen ["A"] wcatC1) :=
  ⟨⟨by decide, by unfold DepClosed catalogNames; decide,
    by unfold RankAcyclic wrankC1; decide, by unfold catalogNames; decide⟩,
   resolveDependencies_ordered wcatC1 ["A"] wrankC1 (by decide)
     (by unfold DepClosed catalogNames; decide)
     (by unfold RankAcyclic wrankC1; decide)
     (by unfold catalogNames; decide)⟩

/-- Fuel-independence of the recursive resolver: any two fuels that exceed the
number of still-unprocessed catalog names give the same result. This is the
termination/determinism statement for the fuel embedding of the C++
recursion (whose depth is bounded the same way). -/
theorem resolveRec_stable (allPackages : List Pkg) :
    ∀ (f₁ f₂ : Nat) (n : String) (P : List String),
      unproc allPackages P < f₁ → unproc allPackages P < f₂ →
      resolveDependenciesRecursive allPackages f₁ n P
        = resolveDependenciesRecursive allPackages f₂ n P := by
  intro f₁
  induction f₁ using Nat.strong_induction_on with
  | _ f₁ ih =>
    intro f₂ n P h1 h2
    cases f₁ with
    | zero => omega
    | succ a =>
      cases f₂ with
      | zero => omega
      | succ b =>
        by_cases hmem : n ∈ P
        · simp [resolveDependenciesRecursive, hmem]
        · cases hfind : findPackageByName allPackages n with
          | none => simp [resolveDependenciesRecursive, hmem, hfind]
          | some packageObj =>
            have hncat : n ∈ catalogNames allPackages :=
              (mem_catalogNames_iff_find allPackages n).mpr ⟨packageObj, hfind⟩
            have hu : unproc allPackages (n :: P) < unproc allPackages P :=
              unproc_insert_lt allPackages P n hncat hmem
            have inner : ∀ (deps : List String) (st : List String × List String),
                unproc allPackages st.2 < a → unproc allPackages st.2 < b →
                resolveDeps (resolveDependenciesRecursive allPackages a) deps st
                  = resolveDeps (resolveDependenciesRecursive allPackages b) deps st := by
              intro deps
              induction deps with
              | nil => intro st _ _; rfl
              | cons d rest ihd =>
                intro st ha hb
                by_cases hd : d = ""
                · rw [show resolveDeps (resolveDependenciesRecursive allPackages a)
                        (d :: rest) st
                      = resolveDeps (resolveDependenciesRecursive allPackages a) rest st by
                    simp [resolveDeps, hd],
                    show resolveDeps (resolveDependenciesRecursive allPackages b)
                        (d :: rest) st
                      = resolveDeps (resolveDependenciesRecursive allPackages b) rest st by
                    simp [resolveDeps, hd]]
                  exact ihd st ha hb
                · have heq : resolveDependenciesRecursive allPackages a d st.2
                      = resolveDependenciesRecursive allPackages b d st.2 :=
                    ih a (by omega) b d st.2 ha hb
                  rw [show resolveDeps (resolveDependenciesRecursive allPackages a)
                        (d :: rest) st
                      = resolveDeps (resolveDependenciesRecursive allPackages a) rest
                          (appendUnique st.1
                            (resolveDependenciesRecursive allPackages a d st.2).1,
                           (resolveDependenciesRecursive allPackages a d st.2).2) by
                    simp [resolveDeps, hd],
                    show resolveDeps (resolveDependenciesRecursive allPackages b)
                        (d :: rest) st
                      = resolveDeps (resolveDependenciesRecursive allPackages b) rest
                          (appendUnique st.1
                            (resolveDependenciesRecursive allPackages b d st.2).1,
                           (resolveDependenciesRecursive allPackages b d st.2).2) by
                    simp [resolveDeps, hd]]
                  rw [heq]
                  have hmono := (resolveRec_facts allPackages b d st.2).1
                  have hle := unproc_anti allPackages st.2
                    (resolveDependenciesRecursive allPackages b d st.2).2 hmono
                  refine ihd _ ?_ ?_
                  · show unproc allPackages
                      (resolveDependenciesRecursive allPackages b d st.2).2 < a
                    omega
                  · show unproc allPackages
                      (resolveDependenciesRecursive allPackages b d st.2).2 < b
                    omega
            have hst0 : unproc allPackages (n :: P) < a := by omega
            have hst0' : unproc allPackages (n :: P) < b := by omega
            rw [show resolveDependenciesRecursive allPackages (a + 1) n P
                = ((resolveDeps (resolveDependenciesRecursive allPackages a)
                      packageObj.dependencies ([], n :: P)).1 ++ [n],
                   (resolveDeps (resolveDependenciesRecursive allPackages a)
                      packageObj.dependencies ([], n :: P)).2) by
              simp [resolveDependenciesRecursive, hmem, hfind],
              show resolveDependenciesRecursive allPackages (b + 1) n P
                = ((resolveDeps (resolveDependenciesRecursive allPackages b)
                      packageObj.dependencies ([], n :: P)).1 ++ [n],
                   (resolveDeps (resolveDependenciesRecursive allPackages b)
                      packageObj.dependencies ([], n :: P)).2) by
              simp [resolveDependenciesRecursive, hmem, hfind]]
            rw [inner packageObj.dependencies ([], n :: P) hst0 hst0']

/-- Any fuel at least `resolveFuel` gives the canonical result of
`resolveDependencies`. -/
theorem resolveWithFuel_stable (allPackages : List Pkg) (packageNames : List String)
    (fuel : Nat) (h : resolveFuel allPackages ≤ fuel) :
    resolveDependenciesWithFuel fuel packageNames allPackages
      = resolveDependencies packageNames allPackages := by
  unfold resolveDependencies resolveDependenciesWithFuel
  by_cases hne : allPackages.isEmpty
  · simp [hne]
  · simp only [hne, Bool.false_eq_true, if_false]
    have hcong : ∀ (names : List String) (st : List String × List String),
        unproc allPackages st.2 < fuel →
        unproc allPackages st.2 < resolveFuel allPackages →
        resolveRoots (resolveDependenciesRecursive allPackages fuel) names st
          = resolveRoots
              (resolveDependenciesRecursive allPackages (resolveFuel allPackages)) names st := by
      intro names
      induction names with
      | nil => intro st _ _; rfl
      | cons n rest ihd =>
        intro st ha hb
        have heq : resolveDependenciesRecursive allPackages fuel n st.2
            = resolveDependenciesRecursive allPackages (resolveFuel allPackages) n st.2 :=
          resolveRec_stable allPackages fuel (resolveFuel allPackages) n st.2 ha hb
        show resolveRoots (resolveDependenciesRecursive allPackages fuel) rest
            (appendUnique st.1 (resolveDependenciesRecursive allPackages fuel n st.2).1,
             (resolveDependenciesRecursive allPackages fuel n st.2).2) = _
        rw [heq]
        have hmono := (resolveRec_facts allPackages (resolveFuel allPackages) n st.2).1
        have hle := unproc_anti allPackages st.2
          (resolveDependenciesRecursive allPackages (resolveFuel allPackages) n st.2).2 hmono
        refine ihd _ ?_ ?_
        · show unproc allPackages
            (resolveDependenciesRecursive allPackages (resolveFuel allPackages) n st.2).2 < fuel
          omega
        · show unproc allPackages
            (resolveDependenciesRecursive allPackages (resolveFuel allPackages) n st.2).2
            < resolveFuel allPackages
          omega
    have hinit : unproc allPackages [] < resolveFuel allPackages := by
      unfold unproc resolveFuel
      have h1 : ((catalogNames allPackages).filter
          (fun x => decide (x ∉ ([] : List String)))).length
          ≤ (catalogNames allPackages).length := List.length_filter_le _ _
      have h2 : (catalogNames allPackages).length = allPackages.length := by
        simp [catalogNames]
      omega
    have := hcong packageNames ([], [])
      (by show unproc allPackages [] < fuel; omega) hinit
    rw [this]

/-- C5 — for every dependency graph, cyclic ones included, the resolver
terminates and is deterministic: a name already in the visited set is not
recursed into again (it returns immediately with no output), and the result
is independent of the fuel once the fuel exceeds the number of unprocessed
catalog names (the C++ recursion depth is bounded the same way, because each
name is inserted into `processed` before its dependencies are descended
into). -/
theorem resolveDependencies_terminates :
    (∀ (allPackages : List Pkg) (fuel : Nat) (n : String) (P : List String),
      n ∈ P → resolveDependenciesRecursive allPackages fuel n P = ([], P))
    ∧ (∀ (allPackages : List Pkg) (f₁ f₂ : Nat) (n : String) (P : List String),
        unproc allPackages P < f₁ → unproc allPackages P < f₂ →
        resolveDependenciesRecursive allPackages f₁ n P
          = resolveDependenciesRecursive allPackages f₂ n P)
    ∧ (∀ (allPackages : List Pkg) (packageNames : List String) (fuel : Nat),
        resolveFuel allPackages ≤ fuel →
        resolveDependenciesWithFuel fuel packageNames allPackages
          = resolveDependencies packageNames allPackages) := by
  refine ⟨?_, resolveRec_stable, ?_⟩
  · intro allPackages fuel n P hmem
    cases fuel with
    | zero => rfl
    | succ fuel => simp [resolveDependenciesRecursive, hmem]
  · intro allPackages packageNames fuel h
    exact resolveWithFuel_stable allPackages packageNames fuel h

/-- Witness catalog for C5: the cyclic graph `A → B → A`. -/
def ccatC5 : List Pkg :=
  [{ name := "A", dependencies := ["B"] }, { name := "B", dependencies := ["A"] }]

/-- Witness for C5 on the cyclic graph `A → B → A`: the visited check stops a
second visit, two sufficient fuels agree, and the canonical fuel is enough. -/
theorem resolveDependencies_terminates_witness :
    ("A" ∈ ["A", "X"] ∧ unproc ccatC5 [] < 3 ∧ unproc ccatC5 [] < 7
      ∧ resolveFuel ccatC5 ≤ 10)
    ∧ resolveDependenciesRecursive ccatC5 5 "A" ["A", "X"] = ([], ["A", "X"])
    ∧ resolveDependenciesRecursive ccatC5 3 "A" []
        = resolveDependenciesRecursive ccatC5 7 "A" []
    ∧ resolveDependenciesWithFuel 10 ["A"] ccatC5 = resolveDependencies ["A"] ccatC5 :=
  ⟨⟨by decide, by unfold unproc catalogNames; decide,
    by unfold unproc catalogNames; decide, by unfold resolveFuel; decide⟩,
   resolveDependencies_terminates.1 ccatC5 5 "A" ["A", "X"] (by decide),
   resolveDependencies_terminates.2.1 ccatC5 3 7 "A" []
     (by unfold unproc catalogNames; decide) (by unfold unproc catalogNames; decide),
   resolveDependencies_terminates.2.2 ccatC5 ["A"] 10 (by unfold resolveFuel; decide)⟩

/-- The compile-time platform configurations distinguished by the
`Q_OS_...`/`Q_PROCESSOR_...` preprocessor ladder in
`currentPlatformVariant`. -/
inductive Platform
  | macArm
  | macIntel
  | linuxX64
  | linuxArm64
  | linuxX86
  | winX64
  | winX86
  | other
deriving DecidableEq, Repr

/-- `PackageManagerLib::currentPlatformVariant` as a function of the
compile-time platform. -/
def currentPlatformVariant : Platform → String
  | .macArm => "darwin-arm64"
  | .macIntel => "darwin-x86_64"
  | .linuxX64 => "linux-x86_64"
  | .linuxArm64 => "linux-arm64"
  | .linuxX86 => "linux-x86"
  | .winX64 => "windows-x86_64"
  | .winX86 => "windows-x86"
  | .other => "unknown"

/-- The alias-appending chain of `platformVariantsToTry`, operating on the
primary tag string exactly as the C++ if/else ladder does. -/
def variantsForPrimary (primary : String) : List String :=
  [primary]
  ++ (if primary = "linux-x86_64" then ["linux-amd64"]
      else if primary = "linux-amd64" then ["linux-x86_64"]
      else if primary = "linux-arm64" then ["linux-aarch64"]
      else if primary = "linux-aarch64" then ["linux-arm64"]
      else [])

/-- `PackageManagerLib::platformVariantsToTry`. -/
def platformVariantsToTry (p : Platform) : List String :=
  variantsForPrimary (currentPlatformVariant p)

/-- C8 counterexample — on macOS/arm64 (a supported OS family whose primary
tag uses the `arm64` spelling) the tried-variant list contains no
`darwin-aarch64` alias, contradicting the claim that the architecture aliases
are applied for every supported OS family. -/
theorem platformVariantsToTry_no_darwin_alias :
    platformVariantsToTry Platform.macArm = ["darwin-arm64"]
    ∧ "darwin-aarch64" ∉ platformVariantsToTry Platform.macArm := by
  constructor
  · rfl
  · decide

/-- C8 (amended) — `platformVariantsToTry` returns the current platform's
primary tag first, and the `x86_64 ⇄ amd64` / `arm64 ⇄ aarch64` aliases are
appended only for the linux OS family; darwin and windows primaries are tried
alone. -/
theorem platformVariantsToTry_amended :
    (∀ p : Platform,
      (platformVariantsToTry p).headD "" = currentPlatformVariant p)
    ∧ platformVariantsToTry Platform.linuxX64 = ["linux-x86_64", "linux-amd64"]
    ∧ platformVariantsToTry Platform.linuxArm64 = ["linux-arm64", "linux-aarch64"]
    ∧ platformVariantsToTry Platform.linuxX86 = ["linux-x86"]
    ∧ platformVariantsToTry Platform.macArm = ["darwin-arm64"]
    ∧ platformVariantsToTry Platform.macIntel = ["darwin-x86_64"]
    ∧ platformVariantsToTry Platform.winX64 = ["windows-x86_64"]
    ∧ platformVariantsToTry Platform.winX86 = ["windows-x86"]
    ∧ platformVariantsToTry Platform.other = ["unknown"]
    ∧ variantsForPrimary "linux-amd64" = ["linux-amd64", "linux-x86_64"]
    ∧ variantsForPrimary "linux-aarch64" = ["linux-aarch64", "linux-arm64"] := by
  refine ⟨?_, by decide, by decide, by decide, by decide, by decide, by decide,
    by decide, by decide, by decide, by decide⟩
  intro p
  cases p <;> rfl

/-- Parsed content of a `manifest.json`, as the code reads it through
`QJsonObject` (`value(k).toString()` yields `""` when the key is missing or
not a string; `main` is the platform-keyed entry-point map). -/
structure Manifest where
  name : String := ""
  version : String := ""
  type : String := ""
  main : List (String × String) := []
deriving DecidableEq, Repr

/-- A loaded LGX container as seen through the external lgx codec interface
(`lgx_get_name` / `lgx_get_version` return NULL → `none`; `hasVariant` is
`lgx_has_variant`; `extractOk` the success of `lgx_extract`; `manifestJson`
the parsed `lgx_get_manifest_json` blob; `files` the names of the files the
matched variant extracts into its variant directory). -/
structure LgxPkg where
  name : Option String := none
  version : Option String := none
  hasVariant : String → Bool := fun _ => false
  extractOk : Bool := true
  manifestJson : Option Manifest := none
  files : List String := []

/-- Environment of one `installPluginFile` call: the source file's
attributes, the codec's view of the container, the configured directories and
the filesystem oracles (`readManifest` models opening and JSON-parsing a
`manifest.json` at a path; `mkpathOk`/`copyOk`/`manifestWriteOk` model the
success of directory creation and file writes — the C++ distinguishes a few
more low-level failure reasons per write, collapsed here into one oracle per
write). `variantsToTry` and `libExtension` are the values of
`platformVariantsToTry()` and the platform library suffix. -/
structure InstallEnv where
  pluginPath : String := ""
  sourceExists : Bool := true
  sourceIsFile : Bool := true
  sourceSuffix : String := "lgx"
  pkg : Option LgxPkg := none
  lgxLastError : String := ""
  extractErrorMsg : String := ""
  tempDirValid : Bool := true
  tempDirPath : String := "/tmp/lgx"
  pluginsDirectory : String := ""
  uiPluginsDirectory : String := ""
  applicationDirPath : String := "/app"
  readManifest : String → Option Manifest := fun _ => none
  manifestWriteOk : Bool := true
  mkpathOk : Bool := true
  copyOk : String → Bool := fun _ => true
  variantsToTry : List String := []
  libExtension : String := ".so"

/-- Observable outcome of `installPluginFile`: the returned `QString`
(`""` failure, `"skipped"`, or the target plugins directory on success), the
error out-parameter, the writes performed under the temporary extraction
directory, the temporary files still existing after return (always `[]`:
`QTemporaryDir` removes its tree on destruction), the writes performed under
the target module directory, and the emitted `pluginFileInstalled`
signals. -/
structure InstallOutcome where
  result : String := ""
  errorMsg : String := ""
  tempWrites : List String := []
  tempLeft : List String := []
  targetWrites : List String := []
  emitted : List (String × Bool) := []
deriving DecidableEq, Repr

/-- `QString::toLower` on the suffix strings compared here. -/
def lowerString (s : String) : String :=
  String.mk (s.data.map Char.toLower)

/-- Helper for `parentDir`: split a path at `'/'`. -/
def splitSlashAux : List Char → List Char → List String
  | [], acc => [String.mk acc.reverse]
  | c :: rest, acc =>
    if c = '/' then String.mk acc.reverse :: splitSlashAux rest []
    else splitSlashAux rest (c :: acc)

/-- `QDir::cdUp` on an already-clean path: drop the last path component. -/
def parentDir (s : String) : String :=
  String.intercalate "/" ((splitSlashAux s.data []).dropLast)

/-- The version-skip loop of `installPluginFile` (lines 88–102): for each
configured base directory, skip empty ones, read
`<base>/<name>/manifest.json`, and report a hit when its `version` is
nonempty and `versionGreaterOrEqual(installed, incoming)` holds. -/
def skipCheck (env : InstallEnv) (incomingName incomingVersion : String) : Bool :=
  [env.pluginsDirectory, env.uiPluginsDirectory].any (fun baseDir =>
    if baseDir = "" then false
    else
      match env.readManifest (baseDir ++ "/" ++ incomingName ++ "/manifest.json") with
      | some doc =>
        decide (doc.version ≠ "") && versionGreaterOrEqual doc.version incomingVersion
      | none => false)

/-- Contents of the extracted variant directory: the variant's files plus the
root `manifest.json` that `extractLgxPackage` writes into it. -/
def variantFiles (pkg : LgxPkg) : List String :=
  if "manifest.json" ∈ pkg.files then pkg.files else pkg.files ++ ["manifest.json"]

/-- Result of `extractLgxPackage`: on success the matched variant tag, the
(on-disk) parsed manifest and file list of the variant directory; in all
cases the writes performed under the output directory and the error
message. -/
structure ExtractOutcome where
  ok : Bool := false
  matchedVariant : String := ""
  manifest : Option Manifest := none
  files : List String := []
  writes : List String := []
  errorMsg : String := ""

/-- `PackageManagerLib::extractLgxPackage`: load the container, pick the
first tag of `variantsToTry()` present in it, extract that variant, then
write the container's root manifest JSON into the extracted variant
directory. -/
def extractLgxPackage (env : InstallEnv) (outputDir : String) : ExtractOutcome :=
  match env.pkg with
  | none => { errorMsg := "Failed to load LGX package: " ++ env.lgxLastError }
  | some pkg =>
    match env.variantsToTry.find? (fun v => pkg.hasVariant v) with
    | none =>
      { errorMsg := "Package does not contain variant for platform: "
          ++ env.variantsToTry.headD "" ++ " (tried: "
          ++ String.intercalate ", " env.variantsToTry ++ ")" }
    | some matchedVariant =>
      if pkg.extractOk = false then
        { errorMsg := "Failed to extract variant: " ++ env.extractErrorMsg }
      else
        let variantOutputDir := outputDir ++ "/" ++ matchedVariant
        let extractedWrites := pkg.files.map (fun f => variantOutputDir ++ "/" ++ f)
        match pkg.manifestJson with
        | none =>
          { errorMsg := "Failed to get manifest JSON from LGX package: "
              ++ env.lgxLastError,
            writes := extractedWrites }
        | some m =>
          if env.manifestWriteOk = false then
            { errorMsg := "Failed to write manifest.json to: "
                ++ variantOutputDir ++ "/manifest.json",
              writes := extractedWrites }
          else
            { ok := true, matchedVariant := matchedVariant, manifest := some m,
              files := variantFiles pkg,
              writes := extractedWrites ++ [variantOutputDir ++ "/manifest.json"] }

/-- The per-file loop of `copyDirectoryContents` over the (flattened) variant
tree: remove-existing + copy for each file, aborting at the first failure and
keeping the files already copied (no rollback). -/
def copyFilesLoop (copyOk : String → Bool) (srcDir destDir : String) :
    List String → List String × Option String
  | [] => ([], none)
  | f :: fs =>
    let destPath := destDir ++ "/" ++ f
    if copyOk destPath then
      let r := copyFilesLoop copyOk srcDir destDir fs
      (destPath :: r.1, r.2)
    else
      ([], some ("Failed to copy file from " ++ (srcDir ++ "/" ++ f)
        ++ " to " ++ destPath))

/-- `QFileInfo::completeBaseName`: the file name up to (excluding) the last
dot. -/
def completeBaseName (f : String) : String :=
  let parts := splitDot f
  if parts.length ≤ 1 then f else String.intercalate "." parts.dropLast

/-- First file name in `QDir::Name` order (the alphabetically smallest). -/
def firstByName (files : List String) : Option String :=
  files.foldl
    (fun acc f =>
      match acc with
      | none => some f
      | some g => if f < g then some f else some g)
    none

/-- Result of `copyLibraryFromExtracted`. -/
structure CopyOutcome where
  ok : Bool := false
  moduleName : String := ""
  errorMsg : String := ""
  writes : List String := []
deriving DecidableEq, Repr

/-- `PackageManagerLib::copyLibraryFromExtracted`: determine the module name
from the extracted manifest's `name` (falling back to the base name of the
first platform library file), then copy the whole variant directory into
`<targetDir>/<moduleName>`. The `isCoreModule` argument of the C++ is
`Q_UNUSED`. -/
def copyLibraryFromExtracted (env : InstallEnv) (ex : ExtractOutcome)
    (variantDir targetDir : String) : CopyOutcome :=
  let manifestName := ((ex.manifest.map (·.name)).getD "")
  let moduleName? : Option String :=
    if manifestName ≠ "" then some manifestName
    else
      match firstByName (ex.files.filter (fun f => f.endsWith env.libExtension)) with
      | some libFile => some (completeBaseName libFile)
      | none => none
  match moduleName? with
  | none =>
    { errorMsg := "No library files found and no name in manifest for: " ++ variantDir }
  | some moduleName =>
    let moduleSubDir := targetDir ++ "/" ++ moduleName
    let r := copyFilesLoop env.copyOk variantDir moduleSubDir ex.files
    match r.2 with
    | some e => { moduleName := moduleName, errorMsg := e, writes := r.1 }
    | none => { ok := true, moduleName := moduleName, writes := r.1 }

/-- The `main`-entry lookup loop of `installPluginFile`: first nonempty value
of the manifest's platform-keyed `main` map along `variantsToTry()`. -/
def lookupMain (main : List (String × String)) : List String → String
  | [] => ""
  | v :: rest =>
    let f := ((main.find? (fun kv => kv.1 = v)).map (·.2)).getD ""
    if f ≠ "" then f else lookupMain main rest

/-- `PackageManagerLib::installPluginFile`: validate the source file, apply
the version-skip policy when requested, extract the matching platform
variant into a temporary directory, detect the module type, resolve the
target plugins directory, copy the variant tree into
`<target>/<moduleName>`, and emit `pluginFileInstalled` for the manifest's
entry point if that file exists after the copy. The temporary directory is
removed on every return path (RAII), hence `tempLeft := []` throughout. -/
def installPluginFile (env : InstallEnv) (skipIfNotNewerVersion : Bool) : InstallOutcome :=
  if env.sourceExists = false ∨ env.sourceIsFile = false then
    { errorMsg := "Source plugin file does not exist or is not a file: " ++ env.pluginPath }
  else if lowerString env.sourceSuffix ≠ "lgx" then
    { errorMsg := "Only LGX packages are supported. Got: " ++ env.sourceSuffix }
  else
    let skipHit : Bool :=
      skipIfNotNewerVersion &&
        (match env.pkg with
         | some pkg =>
           let incomingName := (pkg.name).getD ""
           let incomingVersion := (pkg.version).getD ""
           decide (incomingName ≠ "") && decide (incomingVersion ≠ "")
             && skipCheck env incomingName incomingVersion
         | none => false)
    if skipHit then { result := "skipped" }
    else if env.tempDirValid = false then
      { errorMsg := "Failed to create temporary directory for LGX extraction" }
    else
      let ex := extractLgxPackage env env.tempDirPath
      if ex.ok = false then
        { errorMsg := ex.errorMsg, tempWrites := ex.writes }
      else
        let variantDir := env.tempDirPath ++ "/" ++ ex.matchedVariant
        let detectedType := ((ex.manifest.map (·.type)).getD "")
        let isCoreModule := detectedType == "core"
        let defaultModulesDir := env.applicationDirPath ++ "/bin/modules"
        let pluginsDirectory :=
          if isCoreModule then
            (if env.pluginsDirectory = "" then defaultModulesDir else env.pluginsDirectory)
          else if env.uiPluginsDirectory ≠ "" then env.uiPluginsDirectory
          else
            parentDir (if env.pluginsDirectory = "" then defaultModulesDir
                       else env.pluginsDirectory) ++ "/plugins"
        if pluginsDirectory = "" then
          { errorMsg := "Plugins directory is not set. Cannot install plugin.",
            tempWrites := ex.writes }
        else if env.mkpathOk = false then
          { errorMsg := "Failed to create plugins directory: " ++ pluginsDirectory,
            tempWrites := ex.writes }
        else
          let cp := copyLibraryFromExtracted env ex variantDir pluginsDirectory
          if cp.ok = false then
            { errorMsg := cp.errorMsg, tempWrites := ex.writes, targetWrites := cp.writes }
          else
            let mainFromManifest :=
              ((ex.manifest.map (fun m => lookupMain m.main env.variantsToTry)).getD "")
            let mainFile0 := if mainFromManifest = "" then cp.moduleName else mainFromManifest
            let isQmlPackage := detectedType == "ui_qml"
            let mainFile :=
              if isQmlPackage = false && (mainFile0.contains '.') = false then
                mainFile0 ++ env.libExtension
              else mainFile0
            let mainPath := pluginsDirectory ++ "/" ++ cp.moduleName ++ "/" ++ mainFile
            let emitted := if mainPath ∈ cp.writes then [(mainPath, isCoreModule)] else []
            { result := pluginsDirectory, tempWrites := ex.writes,
              targetWrites := cp.writes, emitted := emitted }

/-- The skip loop reports a hit when some candidate base directory holds a
readable manifest with a nonempty version `≥` the incoming one. -/
theorem skipCheck_of_exists (env : InstallEnv) (incomingName incomingVersion : String)
    (h : ∃ baseDir ∈ [env.pluginsDirectory, env.uiPluginsDirectory],
      baseDir ≠ ""
      ∧ ∃ doc, env.readManifest (baseDir ++ "/" ++ incomingName ++ "/manifest.json")
            = some doc
          ∧ doc.version ≠ ""
          ∧ versionGreaterOrEqual doc.version incomingVersion = true) :
    skipCheck env incomingName incomingVersion = true := by
  rcases h with ⟨b, hb, hbne, doc, hdoc, hver, hge⟩
  unfold skipCheck
  rw [List.any_eq_true]
  refine ⟨b, hb, ?_⟩
  rw [if_neg hbne, hdoc]
  simp [hver, hge]

/-- C3 — when the caller requests skip-if-not-newer and some candidate base
directory contains `<base>/<name>/manifest.json` whose version is numerically
`≥` the incoming container's declared version, `installPluginFile` returns
the distinguished `"skipped"` outcome (not success, not failure) and performs
no filesystem writes at all: no temp writes, no target-directory writes, no
signals. -/
theorem installPluginFile_skipNotNewer (env : InstallEnv) (pkg : LgxPkg)
    (incomingName incomingVersion : String)
    (hex : env.sourceExists = true) (hf : env.sourceIsFile = true)
    (hsuf : lowerString env.sourceSuffix = "lgx")
    (hp : env.pkg = some pkg)
    (hn : pkg.name = some incomingName) (hv : pkg.version = some incomingVersion)
    (hn0 : incomingName ≠ "") (hv0 : incomingVersion ≠ "")
    (hsome : ∃ baseDir ∈ [env.pluginsDirectory, env.uiPluginsDirectory],
      baseDir ≠ ""
      ∧ ∃ doc, env.readManifest (baseDir ++ "/" ++ incomingName ++ "/manifest.json")
            = some doc
          ∧ doc.version ≠ ""
          ∧ versionGreaterOrEqual doc.version incomingVersion = true) :
    installPluginFile env true = { result := "skipped" } := by
  have hskip : skipCheck env incomingName incomingVersion = true :=
    skipCheck_of_exists env incomingName incomingVersion hsome
  unfold installPluginFile
  rw [if_neg (by simp [hex, hf])]
  rw [if_neg (by simp [hsuf])]
  simp only [hp, hn, hv, Option.getD_some]
  rw [decide_eq_true hn0, decide_eq_true hv0, hskip]
  simp

/-- C6 — when the container holds no variant whose tag appears in
`variantsToTry()`, `installPluginFile` fails (empty result) with the
unsupported-platform error message naming the tried variants, and leaves no
temporary files and no target-directory files behind (and emits nothing). -/
theorem installPluginFile_unsupportedPlatform (env : InstallEnv) (pkg : LgxPkg)
    (hex : env.sourceExists = true) (hf : env.sourceIsFile = true)
    (hsuf : lowerString env.sourceSuffix = "lgx")
    (hp : env.pkg = some pkg)
    (hnov : ∀ v ∈ env.variantsToTry, pkg.hasVariant v = false)
    (htmp : env.tempDirValid = true) :
    installPluginFile env false =
      { errorMsg := "Package does not contain variant for platform: "
          ++ env.variantsToTry.headD "" ++ " (tried: "
          ++ String.intercalate ", " env.variantsToTry ++ ")" } := by
  have hfind : env.variantsToTry.find? (fun v => pkg.hasVariant v) = none := by
    rw [List.find?_eq_none]
    intro v hv
    simp [hnov v hv]
  have hextract : extractLgxPackage env env.tempDirPath =
      { errorMsg := "Package does not contain variant for platform: "
          ++ env.variantsToTry.headD "" ++ " (tried: "
          ++ String.intercalate ", " env.variantsToTry ++ ")" } := by
    unfold extractLgxPackage
    simp only [hp]
    rw [hfind]
  unfold installPluginFile
  rw [if_neg (by simp [hex, hf])]
  rw [if_neg (by simp [hsuf])]
  simp only [Bool.false_and, Bool.false_eq_true, if_false]
  rw [if_neg (by simp [htmp])]
  rw [hextract]
  rfl

/-- Witness manifest/package/environment for C3: module `mod` installed at
version `2.0.0` under `/plugins`, incoming container at `1.9.0`. -/
def wpkgC3 : LgxPkg :=
  { name := some "mod", version := some "1.9.0",
    hasVariant := fun v => decide (v = "linux-x86_64"),
    manifestJson := some { name := "mod", type := "core", version := "1.9.0" },
    files := ["mod.so"] }

/-- Witness environment for C3. -/
def wenvC3 : InstallEnv :=
  { pluginPath := "/downloads/mod.lgx", pkg := some wpkgC3,
    pluginsDirectory := "/plugins",
    readManifest := fun p =>
      if p = "/plugins/mod/manifest.json"
      then some { name := "mod", version := "2.0.0" } else none,
    variantsToTry := ["linux-x86_64", "linux-amd64"] }

/-- Witness for C3: concrete skip at installed `2.0.0` ≥ incoming `1.9.0`. -/
theorem installPluginFile_skipNotNewer_witness :
    (wenvC3.sourceExists = true ∧ wenvC3.sourceIsFile = true
      ∧ lowerString wenvC3.sourceSuffix = "lgx"
      ∧ wenvC3.pkg = some wpkgC3
      ∧ wpkgC3.name = some "mod" ∧ wpkgC3.version = some "1.9.0"
      ∧ versionGreaterOrEqual "2.0.0" "1.9.0" = true)
    ∧ installPluginFile wenvC3 true = { result := "skipped" } :=
  ⟨⟨rfl, rfl, by decide, rfl, rfl, rfl, by decide⟩,
   installPluginFile_skipNotNewer wenvC3 wpkgC3 "mod" "1.9.0" rfl rfl (by decide)
     rfl rfl rfl (by decide) (by decide)
     ⟨"/plugins", by decide, by decide,
      { name := "mod", version := "2.0.0" }, by simp [wenvC3], by decide, by decide⟩⟩

/-- Witness package/environment for C6: a container with no variant at all. -/
def wpkgC6 : LgxPkg :=
  { name := some "mod", version := some "1.0.0",
    hasVariant := fun _ => false,
    manifestJson := some { name := "mod", type := "core", version := "1.0.0" },
    files := ["mod.so"] }

/-- Witness environment for C6. -/
def wenvC6 : InstallEnv :=
  { pluginPath := "/downloads/mod.lgx", pkg := some wpkgC6,
    pluginsDirectory := "/plugins",
    variantsToTry := ["linux-x86_64", "linux-amd64"] }

/-- Witness for C6: concrete unsupported-platform failure with no writes. -/
theorem installPluginFile_unsupportedPlatform_witness :
    (wenvC6.sourceExists = true ∧ wenvC6.sourceIsFile = true
      ∧ lowerString wenvC6.sourceSuffix = "lgx"
      ∧ wenvC6.pkg = some wpkgC6
      ∧ (∀ v ∈ wenvC6.variantsToTry, wpkgC6.hasVariant v = false)
      ∧ wenvC6.tempDirValid = true)
    ∧ installPluginFile wenvC6 false =
        { errorMsg := "Package does not contain variant for platform: "
            ++ wenvC6.variantsToTry.headD "" ++ " (tried: "
            ++ String.intercalate ", " wenvC6.variantsToTry ++ ")" } :=
  ⟨⟨rfl, rfl, by decide, rfl, by intro v _; rfl, rfl⟩,
   installPluginFile_unsupportedPlatform wenvC6 wpkgC6 rfl rfl (by decide) rfl
     (by intro v _; rfl) rfl⟩

/-- Which network callback the orchestrator is waiting for
(`onPackageListFetched` or `onFileDownloaded`). -/
inductive NetPending
  | catalogFetch
  | fileDownload
deriving DecidableEq, Repr

/-- `PackageManagerLib`'s async state (`m_asyncState`). -/
structure AsyncInstallState where
  packageName : String := ""
  packageObj : Option Pkg := none
  packageQueue : List String := []
  currentPackageIndex : Nat := 0
  filesToDownload : List String := []
  downloadedFiles : List String := []
  currentDownloadIndex : Nat := 0
  tempDir : String := ""
deriving DecidableEq, Repr

/-- The orchestrator's state: the `m_isInstalling` guard flag, the FIFO
`m_requestQueue`, the async state, plus (as instrumentation of the
event-driven control flow) which network reply is outstanding. -/
structure OrchState where
  isInstalling : Bool := false
  requestQueue : List (List String) := []
  async : AsyncInstallState := {}
  pending : Option NetPending := none
deriving DecidableEq, Repr

/-- Observable events of one orchestrator run. `requestActivated` marks the
point where `installPackagesAsync` starts processing a request (rather than
queueing it); `batchEnded` marks every `isInstalling := true → false`
transition; `installAttempt` marks an `installPluginFile` invocation;
`installationFinished` is the emitted signal; `netCatalogFetch` /
`netDownload` mark the network GETs issued. -/
inductive OrchEvent
  | requestActivated (packageNames : List String)
  | batchEnded
  | netCatalogFetch
  | netDownload (file : String)
  | installAttempt (file : String)
  | installationFinished (packageName : String) (success : Bool) (error : String)
deriving DecidableEq, Repr

/-- Fixed per-run environment: the catalog the synchronous
`resolveDependencies` fetch returns (empty list = fetch/parse failure), the
temp-directory lookup, the write oracles of `onFileDownloaded`, and the
outcome of `installPluginFile` per downloaded file (the engine itself is
modelled separately by `installPluginFile` above). -/
structure OrchEnv where
  resolveCatalog : List Pkg := []
  tempDirOk : Bool := true
  mkpathOk : Bool := true
  openOk : String → Bool := fun _ => true
  writeAllOk : String → Bool := fun _ => true
  installOk : String → Bool := fun _ => true

/-- Inputs driving the machine: a caller's `installPackagesAsync` call, or the
completion of the outstanding network request (`Except.error` carries the
`errorString`; for the catalog it covers network error, JSON parse error and
non-array payload alike). -/
inductive OrchInput
  | submit (packageNames : List String)
  | catalogResult (r : Except String (List Pkg))
  | downloadResult (r : Except String Unit)

/-- `PackageManagerLib::startNextPackageInQueue`: either all packages of the
current batch are done (reset the active state — the `true` flag tells the
caller to drain the request queue next), or pick the next package and issue
the catalog fetch for it. -/
def startNextPackageInQueue (s : OrchState) : OrchState × List OrchEvent × Bool :=
  if s.async.currentPackageIndex ≥ s.async.packageQueue.length then
    let a := { s.async with packageName := "", packageQueue := ([] : List String), currentPackageIndex := 0 }
    ({ s with isInstalling := false, async := a }, [OrchEvent.batchEnded], true)
  else
    let packageName := s.async.packageQueue.getD s.async.currentPackageIndex ""
    let a := { s.async with packageName := packageName }
    ({ s with async := a, pending := some NetPending.catalogFetch },
     [OrchEvent.netCatalogFetch], false)

/-- `PackageManagerLib::finishAsyncInstallation` without the queue drain (the
drain is appended by the caller, as in the C++ where it is the tail call):
reset the guard flag and the async state, emit `installationFinished`. -/
def finishAsyncInstallation (s : OrchState) (success : Bool) (error : String) :
    OrchState × List OrchEvent :=
  let packageName := s.async.packageName
  let a := { s.async with packageName := "", filesToDownload := ([] : List String), downloadedFiles := ([] : List String), packageQueue := ([] : List String), currentPackageIndex := 0 }
  ({ s with isInstalling := false, async := a },
   [OrchEvent.installationFinished packageName success error, OrchEvent.batchEnded])

/-- The non-queueing part of `installPackagesAsync` (lines 458–476): set the
guard flag, resolve dependencies synchronously, initialise the async state,
and either fail on the temp directory, finish immediately (empty resolved
queue), or issue the first catalog fetch. The `Bool` tells the caller whether
the request queue must be drained next. -/
def activateRequest (env : OrchEnv) (packageNames : List String) (s : OrchState) :
    OrchState × List OrchEvent × Bool :=
  let s0 := { s with isInstalling := true }
  let packagesToInstall := resolveDependencies packageNames env.resolveCatalog
  let a1 := { s0.async with packageQueue := packagesToInstall, currentPackageIndex := 0, filesToDownload := ([] : List String), downloadedFiles := ([] : List String), currentDownloadIndex := 0, tempDir := if env.tempDirOk = false then "" else "/tmp" }
  let s1 := { s0 with async := a1 }
  if env.tempDirOk = false then
    let r := finishAsyncInstallation s1 false "Failed to get temp directory"
    (r.1, OrchEvent.requestActivated packageNames :: r.2, true)
  else
    let r := startNextPackageInQueue s1
    (r.1, OrchEvent.requestActivated packageNames :: r.2.1, r.2.2)

/-- `PackageManagerLib::processNextRequestInQueue`, with the recursion
through `installPackagesAsync` made explicit (the fuel bounds the number of
queued requests drained in one cascade; `requestQueue.length + 1` always
suffices because every iteration dequeues). An empty queued request emits the
no-packages signal and stops, exactly like `installPackagesAsync` does. -/
def processNextRequestInQueue (env : OrchEnv) : Nat → OrchState → OrchState × List OrchEvent
  | 0, s => (s, [])
  | fuel + 1, s =>
    match s.requestQueue with
    | [] => (s, [])
    | nextPackages :: rest =>
      let s0 := { s with requestQueue := rest }
      if nextPackages.isEmpty then
        (s0, [OrchEvent.installationFinished "" false "No packages to install"])
      else
        let r := activateRequest env nextPackages s0
        if r.2.2 then
          let r2 := processNextRequestInQueue env fuel r.1
          (r2.1, r.2.1 ++ r2.2)
        else (r.1, r.2.1)

/-- Append the queue drain when the previous step ended the active batch. -/
def runDrain (env : OrchEnv) (s : OrchState) (evs : List OrchEvent) (needDrain : Bool) :
    OrchState × List OrchEvent :=
  if needDrain then
    let r := processNextRequestInQueue env (s.requestQueue.length + 1) s
    (r.1, evs ++ r.2)
  else (s, evs)

/-- `PackageManagerLib::startNextFileDownload`: when all files of the current
package are downloaded, run `installPluginFile` on each downloaded file
(failures are recorded but do not abort the loop), emit the per-package
`installationFinished`, advance the package index and continue with the next
package (draining the request queue when the batch is complete); otherwise
issue the next file download. -/
def startNextFileDownload (env : OrchEnv) (s : OrchState) : OrchState × List OrchEvent :=
  if s.async.currentDownloadIndex ≥ s.async.filesToDownload.length then
    let attempts := s.async.downloadedFiles.map OrchEvent.installAttempt
    let allInstalled := s.async.downloadedFiles.all env.installOk
    let finishedEv := OrchEvent.installationFinished s.async.packageName allInstalled
      (if allInstalled then "" else "Some files failed to install")
    let a1 := { s.async with filesToDownload := ([] : List String), downloadedFiles := ([] : List String), currentDownloadIndex := 0, currentPackageIndex := s.async.currentPackageIndex + 1 }
    let s1 := { s with async := a1 }
    let r := startNextPackageInQueue s1
    runDrain env r.1 (attempts ++ [finishedEv] ++ r.2.1) r.2.2
  else
    let fileName := s.async.filesToDownload.getD s.async.currentDownloadIndex ""
    ({ s with pending := some NetPending.fileDownload },
     [OrchEvent.netDownload fileName])

/-- One transition of the orchestrator: a submission
(`installPackagesAsync`, lines 441–476), the catalog-fetch completion
(`onPackageListFetched`, lines 516–568) or a file-download completion
(`onFileDownloaded`, lines 615–671). A network completion that no request is
waiting for is ignored. -/
def step (env : OrchEnv) (s : OrchState) : OrchInput → OrchState × List OrchEvent
  | .submit packageNames =>
    if packageNames.isEmpty then
      (s, [OrchEvent.installationFinished "" false "No packages to install"])
    else if s.isInstalling then
      ({ s with requestQueue := s.requestQueue ++ [packageNames] }, [])
    else
      let r := activateRequest env packageNames s
      runDrain env r.1 r.2.1 r.2.2
  | .catalogResult r =>
    if s.pending ≠ some NetPending.catalogFetch then (s, [])
    else
      let s0 := { s with pending := none }
      match r with
      | .error e =>
        let f := finishAsyncInstallation s0 false ("Failed to fetch package list: " ++ e)
        runDrain env f.1 f.2 true
      | .ok packages =>
        match findPackageByName packages s0.async.packageName with
        | none =>
          let f := finishAsyncInstallation s0 false
            ("Package not found: " ++ s0.async.packageName)
          runDrain env f.1 f.2 true
        | some packageObj =>
          if packageObj.packageFile = "" then
            let f := finishAsyncInstallation s0 false "Package has no package file specified"
            runDrain env f.1 f.2 true
          else
            let a1 := { s0.async with packageObj := some packageObj, filesToDownload := s0.async.filesToDownload ++ [packageObj.packageFile], currentDownloadIndex := 0 }
            startNextFileDownload env { s0 with async := a1 }
  | .downloadResult r =>
    if s.pending ≠ some NetPending.fileDownload then (s, [])
    else
      let s0 := { s with pending := none }
      let fileName := s0.async.filesToDownload.getD s0.async.currentDownloadIndex ""
      match r with
      | .error e =>
        let f := finishAsyncInstallation s0 false
          ("Failed to download " ++ fileName ++ ": " ++ e)
        runDrain env f.1 f.2 true
      | .ok _ =>
        let destinationPath := s0.async.tempDir ++ "/" ++ fileName
        if env.mkpathOk = false then
          let f := finishAsyncInstallation s0 false "Failed to create destination directory"
          runDrain env f.1 f.2 true
        else if env.openOk destinationPath = false then
          let f := finishAsyncInstallation s0 false
            ("Failed to open file for writing: " ++ destinationPath)
          runDrain env f.1 f.2 true
        else if env.writeAllOk destinationPath = false then
          let f := finishAsyncInstallation s0 false "Failed to write all data to file"
          runDrain env f.1 f.2 true
        else
          let a1 := { s0.async with downloadedFiles := s0.async.downloadedFiles ++ [destinationPath], currentDownloadIndex := s0.async.currentDownloadIndex + 1 }
          startNextFileDownload env { s0 with async := a1 }

/-- Run the machine over a list of inputs, collecting the event trace. -/
def run (env : OrchEnv) : OrchState → List OrchInput → OrchState × List OrchEvent
  | s, [] => (s, [])
  | s, e :: es =>
    let r := step env s e
    let r2 := run env r.1 es
    (r2.1, r.2 ++ r2.2)

/-- The initial orchestrator state. -/
def initOrchState : OrchState := {}

/-- One step of the activation/batch-end alternation check: `b = true` means
the next batch-boundary event must be an activation (the machine is between
batches); `none` signals a violation. All other events are ignored. -/
def altStep (b : Bool) (e : OrchEvent) : Option Bool :=
  match e with
  | .requestActivated _ => if b then some false else none
  | .batchEnded => if b then none else some true
  | _ => some b

/-- Run the alternation check over a trace. -/
def altRun : Bool → List OrchEvent → Option Bool
  | b, [] => some b
  | b, e :: es =>
    match altStep b e with
    | none => none
    | some b2 => altRun b2 es

/-- The request payloads of the `requestActivated` events of a trace, in
order. -/
def activationsOf (tr : List OrchEvent) : List (List String) :=
  tr.filterMap (fun e =>
    match e with
    | OrchEvent.requestActivated ns => some ns
    | _ => none)

/-- The nonempty submissions of an input sequence, in order. -/
def submitsOf (inputs : List OrchInput) : List (List String) :=
  inputs.filterMap (fun i =>
    match i with
    | OrchInput.submit ns => if ns.isEmpty then none else some ns
    | _ => none)

/-- Reachable-state invariant of the orchestrator: no empty request is ever
queued, and when the machine is idle the queue has been fully drained and no
network reply is outstanding. -/
def WfOrch (s : OrchState) : Prop :=
  ([] ∉ s.requestQueue)
  ∧ (s.isInstalling = false → s.requestQueue = [] ∧ s.pending = none)

theorem altRun_append (b : Bool) (t₁ t₂ : List OrchEvent) :
    altRun b (t₁ ++ t₂)
      = (altRun b t₁).bind (fun b2 => altRun b2 t₂) := by
  induction t₁ generalizing b with
  | nil => simp [altRun]
  | cons e t ih =>
    show altRun b (e :: (t ++ t₂)) = _
    rw [altRun]
    cases haltStep : altStep b e with
    | none => simp [altRun, haltStep]
    | some b2 =>
      simp only [altRun, haltStep]
      exact ih b2

theorem altRun_attempts (files : List String) (b : Bool) :
    altRun b (files.map OrchEvent.installAttempt) = some b := by
  induction files with
  | nil => rfl
  | cons f fs ih => simp only [List.map_cons, altRun, altStep]; exact ih

theorem activationsOf_append (t₁ t₂ : List OrchEvent) :
    activationsOf (t₁ ++ t₂) = activationsOf t₁ ++ activationsOf t₂ := by
  simp [activationsOf]

theorem activationsOf_attempts (files : List String) :
    activationsOf (files.map OrchEvent.installAttempt) = [] := by
  induction files with
  | nil => rfl
  | cons f fs ih => simpa [activationsOf] using ih

theorem submitsOf_cons (i : OrchInput) (inputs : List OrchInput) :
    submitsOf (i :: inputs) = submitsOf [i] ++ submitsOf inputs := by
  show submitsOf ([i] ++ inputs) = _
  unfold submitsOf
  rw [List.filterMap_append]

/-- Composition of take/drop decompositions used to chain per-step activation
accounting through a run. -/
theorem take_drop_chain {α : Type} (L M : List α) (m₁ m₂ : Nat)
    (h₁ : m₁ ≤ L.length) :
    L.take m₁ ++ (L.drop m₁ ++ M).take m₂ = (L ++ M).take (m₁ + m₂)
    ∧ (L.drop m₁ ++ M).drop m₂ = (L ++ M).drop (m₁ + m₂) := by
  have hsplit : L ++ M = L.take m₁ ++ (L.drop m₁ ++ M) := by
    rw [← List.append_assoc, List.take_append_drop]
  have hlen : (L.take m₁).length = m₁ := by
    rw [List.length_take]
    omega
  constructor
  · rw [hsplit]
    rw [show m₁ + m₂ = (L.take m₁).length + m₂ by rw [hlen]]
    rw [List.take_append]
  · rw [hsplit]
    rw [show m₁ + m₂ = (L.take m₁).length + m₂ by rw [hlen]]
    rw [List.drop_append]

/-- Behaviour of one request activation from an idle state: the queue is
untouched, exactly one activation event is emitted, and the machine either
returns to idle with a completed batch boundary (`needDrain = true`) or goes
busy with a catalog fetch outstanding. -/
theorem activateRequest_spec (env : OrchEnv) (packageNames : List String) (s : OrchState)
    (hpend : s.pending = none) :
    ((activateRequest env packageNames s).1.requestQueue = s.requestQueue)
    ∧ activationsOf (activateRequest env packageNames s).2.1 = [packageNames]
    ∧ ((activateRequest env packageNames s).2.2 = true →
        (activateRequest env packageNames s).1.isInstalling = false
        ∧ (activateRequest env packageNames s).1.pending = none
        ∧ altRun true (activateRequest env packageNames s).2.1 = some true)
    ∧ ((activateRequest env packageNames s).2.2 = false →
        (activateRequest env packageNames s).1.isInstalling = true
        ∧ (activateRequest env packageNames s).1.pending = some NetPending.catalogFetch
        ∧ altRun true (activateRequest env packageNames s).2.1 = some false) := by
  unfold activateRequest startNextPackageInQueue finishAsyncInstallation
  by_cases h1 : env.tempDirOk = false
  · rw [h1]
    exact ⟨rfl, rfl, fun _ => ⟨rfl, hpend, rfl⟩, fun hc => Bool.noConfusion hc⟩
  · have h1' : env.tempDirOk = true := by revert h1; cases env.tempDirOk <;> simp
    rw [h1']
    cases hq : resolveDependencies packageNames env.resolveCatalog with
    | nil => exact ⟨rfl, rfl, fun _ => ⟨rfl, hpend, rfl⟩, fun hc => Bool.noConfusion hc⟩
    | cons a t => exact ⟨rfl, rfl, fun hc => Bool.noConfusion hc, fun _ => ⟨rfl, rfl, rfl⟩⟩

/-- Behaviour of the request-queue drain from an idle state with sufficient
fuel: it activates some prefix of the queued requests in FIFO order, leaves
exactly the rest queued, keeps the activation/batch-end alternation intact,
and stops either busy (mid-batch) or idle with an empty queue. -/
theorem processNextRequestInQueue_spec (env : OrchEnv) :
    ∀ (fuel : Nat) (s : OrchState),
      s.isInstalling = false → s.pending = none → ([] ∉ s.requestQueue) →
      s.requestQueue.length < fuel →
      ∃ m, m ≤ s.requestQueue.length
        ∧ activationsOf (processNextRequestInQueue env fuel s).2 = s.requestQueue.take m
        ∧ (processNextRequestInQueue env fuel s).1.requestQueue = s.requestQueue.drop m
        ∧ altRun true (processNextRequestInQueue env fuel s).2
            = some (!(processNextRequestInQueue env fuel s).1.isInstalling)
        ∧ ([] ∉ (processNextRequestInQueue env fuel s).1.requestQueue)
        ∧ ((processNextRequestInQueue env fuel s).1.isInstalling = false →
            (processNextRequestInQueue env fuel s).1.requestQueue = []
            ∧ (processNextRequestInQueue env fuel s).1.pending = none) := by
  intro fuel
  induction fuel with
  | zero =>
    intro s _ _ _ hlen
    omega
  | succ fuel ih =>
    intro s hidle hpend hwq hlen
    cases hq : s.requestQueue with
    | nil =>
      rw [show processNextRequestInQueue env (fuel + 1) s = (s, []) by
        unfold processNextRequestInQueue
        rw [hq]]
      refine ⟨0, by simp, by simp [activationsOf], by simp [hq], ?_, ?_, ?_⟩
      · rw [hidle]
        rfl
      · rw [hq]
        simp
      · intro _
        exact ⟨hq, hpend⟩
    | cons nextPackages rest =>
      have hne : nextPackages ≠ [] := fun hc => hwq (by rw [hq, hc]; simp)
      have hneE : nextPackages.isEmpty = false := by
        cases nextPackages with
        | nil => exact absurd rfl hne
        | cons a t => rfl
      set s0 : OrchState := { s with requestQueue := rest } with hs0
      have hstep : processNextRequestInQueue env (fuel + 1) s
          = (if (activateRequest env nextPackages s0).2.2 then
              ((processNextRequestInQueue env fuel (activateRequest env nextPackages s0).1).1,
               (activateRequest env nextPackages s0).2.1
                 ++ (processNextRequestInQueue env fuel
                      (activateRequest env nextPackages s0).1).2)
             else ((activateRequest env nextPackages s0).1,
                   (activateRequest env nextPackages s0).2.1)) := by
        conv_lhs => rw [processNextRequestInQueue]
        rw [hq]
        simp only [hneE, Bool.false_eq_true, if_false]
      obtain ⟨a1, a2, a3, a4⟩ := activateRequest_spec env nextPackages s0 hpend
      cases hnd : (activateRequest env nextPackages s0).2.2 with
      | true =>
        obtain ⟨b1, b2, b3⟩ := a3 hnd
        have hwq' : [] ∉ (activateRequest env nextPackages s0).1.requestQueue := by
          rw [a1]
          intro hc
          exact hwq (by rw [hq]; exact List.mem_cons.mpr (Or.inr hc))
        have hlen' : (activateRequest env nextPackages s0).1.requestQueue.length < fuel := by
          rw [a1]
          rw [hq] at hlen
          simp only [List.length_cons] at hlen
          show rest.length < fuel
          omega
        obtain ⟨m, c1, c2, c3, c4, c5, c6⟩ :=
          ih (activateRequest env nextPackages s0).1 b1 b2 hwq' hlen'
        rw [hstep, if_pos (by rw [hnd])]
        have c1' : m ≤ rest.length := by
          rw [a1] at c1
          exact c1
        refine ⟨m + 1, ?_, ?_, ?_, ?_, c5, c6⟩
        · simp only [List.length_cons]
          omega
        · rw [activationsOf_append, a2, c2, a1]
          rfl
        · rw [c3, a1]
          rfl
        · rw [altRun_append, b3]
          simpa using c4
      | false =>
        obtain ⟨b1, b2, b3⟩ := a4 hnd
        rw [hstep, if_neg (by rw [hnd]; exact fun hc => Bool.noConfusion hc)]
        refine ⟨1, ?_, ?_, ?_, ?_, ?_, ?_⟩
        · simp
        · rw [a2]
          rfl
        · rw [a1]
          rfl
        · rw [b3, b1]
          rfl
        · rw [a1]
          intro hc
          exact hwq (by rw [hq]; exact List.mem_cons.mpr (Or.inr hc))
        · intro hc
          rw [b1] at hc
          exact Bool.noConfusion hc

/-- Lifting of the drain spec through `runDrain`: given a mid-batch event
prefix with no activations that either closes the batch (`nd = true`) or
leaves it open, the combined result still activates a FIFO prefix of the
queue and keeps the alternation intact. -/
theorem runDrain_spec (env : OrchEnv) (s : OrchState) (evs : List OrchEvent) (nd : Bool)
    (hacts : activationsOf evs = [])
    (hnd_true : nd = true →
      s.isInstalling = false ∧ s.pending = none ∧ altRun false evs = some true)
    (hnd_false : nd = false → s.isInstalling = true ∧ altRun false evs = some false)
    (hwq : [] ∉ s.requestQueue) :
    ∃ m, m ≤ s.requestQueue.length
      ∧ activationsOf (runDrain env s evs nd).2 = s.requestQueue.take m
      ∧ (runDrain env s evs nd).1.requestQueue = s.requestQueue.drop m
      ∧ altRun false (runDrain env s evs nd).2
          = some (!(runDrain env s evs nd).1.isInstalling)
      ∧ ([] ∉ (runDrain env s evs nd).1.requestQueue)
      ∧ ((runDrain env s evs nd).1.isInstalling = false →
          (runDrain env s evs nd).1.requestQueue = []
          ∧ (runDrain env s evs nd).1.pending = none) := by
  cases nd with
  | false =>
    obtain ⟨b1, b2⟩ := hnd_false rfl
    have hstep : runDrain env s evs false = (s, evs) := by
      unfold runDrain
      rfl
    rw [hstep]
    refine ⟨0, by simp, by simpa using hacts, by simp, ?_, hwq, ?_⟩
    · rw [b2, b1]
      rfl
    · intro hc
      rw [b1] at hc
      exact Bool.noConfusion hc
  | true =>
    obtain ⟨b1, b2, b3⟩ := hnd_true rfl
    have hstep : runDrain env s evs true
        = ((processNextRequestInQueue env (s.requestQueue.length + 1) s).1,
           evs ++ (processNextRequestInQueue env (s.requestQueue.length + 1) s).2) := by
      unfold runDrain
      rfl
    obtain ⟨m, c1, c2, c3, c4, c5, c6⟩ :=
      processNextRequestInQueue_spec env (s.requestQueue.length + 1) s b1 b2 hwq
        (by omega)
    rw [hstep]
    refine ⟨m, c1, ?_, c3, ?_, c5, c6⟩
    · rw [activationsOf_append, hacts, c2]
      rfl
    · rw [altRun_append, b3]
      simpa using c4

/-- Behaviour of `startNextFileDownload` from a busy state with no pending
reply: it either issues the next download (staying busy), or installs the
downloaded files, emits the per-package completion, moves to the next package
or ends the batch and drains the queue — in all cases activating only a FIFO
prefix of the queued requests and preserving the alternation. -/
theorem startNextFileDownload_spec (env : OrchEnv) (s : OrchState)
    (hbusy : s.isInstalling = true) (hpend : s.pending = none)
    (hwq : [] ∉ s.requestQueue) :
    ∃ m, m ≤ s.requestQueue.length
      ∧ activationsOf (startNextFileDownload env s).2 = s.requestQueue.take m
      ∧ (startNextFileDownload env s).1.requestQueue = s.requestQueue.drop m
      ∧ altRun false (startNextFileDownload env s).2
          = some (!(startNextFileDownload env s).1.isInstalling)
      ∧ ([] ∉ (startNextFileDownload env s).1.requestQueue)
      ∧ ((startNextFileDownload env s).1.isInstalling = false →
          (startNextFileDownload env s).1.requestQueue = []
          ∧ (startNextFileDownload env s).1.pending = none) := by
  by_cases hdl : s.async.currentDownloadIndex ≥ s.async.filesToDownload.length
  · -- all files downloaded: install, report, advance
    have hstep : startNextFileDownload env s
        = runDrain env
            (startNextPackageInQueue { s with async := { s.async with
              filesToDownload := ([] : List String), downloadedFiles := ([] : List String),
              currentDownloadIndex := 0,
              currentPackageIndex := s.async.currentPackageIndex + 1 } }).1
            (s.async.downloadedFiles.map OrchEvent.installAttempt
              ++ [OrchEvent.installationFinished s.async.packageName
                    (s.async.downloadedFiles.all env.installOk)
                    (if s.async.downloadedFiles.all env.installOk then ""
                     else "Some files failed to install")]
              ++ (startNextPackageInQueue { s with async := { s.async with
                    filesToDownload := ([] : List String),
                    downloadedFiles := ([] : List String), currentDownloadIndex := 0,
                    currentPackageIndex := s.async.currentPackageIndex + 1 } }).2.1)
            (startNextPackageInQueue { s with async := { s.async with
              filesToDownload := ([] : List String), downloadedFiles := ([] : List String),
              currentDownloadIndex := 0,
              currentPackageIndex := s.async.currentPackageIndex + 1 } }).2.2 := by
      unfold startNextFileDownload
      rw [if_pos hdl]
    rw [hstep]
    by_cases hnext : s.async.currentPackageIndex + 1 ≥ s.async.packageQueue.length
    · have hsn : startNextPackageInQueue { s with async := { s.async with
            filesToDownload := ([] : List String), downloadedFiles := ([] : List String),
            currentDownloadIndex := 0,
            currentPackageIndex := s.async.currentPackageIndex + 1 } }
          = ({ s with isInstalling := false, async := { s.async with
                packageName := "", packageQueue := ([] : List String),
                currentPackageIndex := 0, filesToDownload := ([] : List String),
                downloadedFiles := ([] : List String), currentDownloadIndex := 0 } },
             [OrchEvent.batchEnded], true) := by
        unfold startNextPackageInQueue
        rw [if_pos (by simpa using hnext)]
      rw [hsn]
      obtain ⟨m, c1, c2, c3, c4, c5, c6⟩ :=
        runDrain_spec env
          ({ s with isInstalling := false, async := { s.async with
              packageName := "", packageQueue := ([] : List String),
              currentPackageIndex := 0, filesToDownload := ([] : List String),
              downloadedFiles := ([] : List String), currentDownloadIndex := 0 } })
          (s.async.downloadedFiles.map OrchEvent.installAttempt
            ++ [OrchEvent.installationFinished s.async.packageName
                  (s.async.downloadedFiles.all env.installOk)
                  (if s.async.downloadedFiles.all env.installOk then ""
                   else "Some files failed to install")]
            ++ [OrchEvent.batchEnded])
          true
          (by rw [activationsOf_append, activationsOf_append, activationsOf_attempts]; rfl)
          (fun _ => ⟨rfl, hpend,
            by rw [altRun_append, altRun_append, altRun_attempts]; rfl⟩)
          (fun hc => Bool.noConfusion hc)
          hwq
      exact ⟨m, c1, c2, c3, c4, c5, c6⟩
    · have hsn : startNextPackageInQueue { s with async := { s.async with
            filesToDownload := ([] : List String), downloadedFiles := ([] : List String),
            currentDownloadIndex := 0,
            currentPackageIndex := s.async.currentPackageIndex + 1 } }
          = ({ s with pending := some NetPending.catalogFetch, async := { s.async with
                packageName := s.async.packageQueue.getD (s.async.currentPackageIndex + 1) "",
                filesToDownload := ([] : List String), downloadedFiles := ([] : List String),
                currentDownloadIndex := 0,
                currentPackageIndex := s.async.currentPackageIndex + 1 } },
             [OrchEvent.netCatalogFetch], false) := by
        unfold startNextPackageInQueue
        rw [if_neg (by simpa using hnext)]
      rw [hsn]
      obtain ⟨m, c1, c2, c3, c4, c5, c6⟩ :=
        runDrain_spec env
          ({ s with pending := some NetPending.catalogFetch, async := { s.async with
              packageName := s.async.packageQueue.getD (s.async.currentPackageIndex + 1) "",
              filesToDownload := ([] : List String), downloadedFiles := ([] : List String),
              currentDownloadIndex := 0,
              currentPackageIndex := s.async.currentPackageIndex + 1 } })
          (s.async.downloadedFiles.map OrchEvent.installAttempt
            ++ [OrchEvent.installationFinished s.async.packageName
                  (s.async.downloadedFiles.all env.installOk)
                  (if s.async.downloadedFiles.all env.installOk then ""
                   else "Some files failed to install")]
            ++ [OrchEvent.netCatalogFetch])
          false
          (by rw [activationsOf_append, activationsOf_append, activationsOf_attempts]; rfl)
          (fun hc => Bool.noConfusion hc)
          (fun _ => ⟨hbusy,
            by rw [altRun_append, altRun_append, altRun_attempts]; rfl⟩)
          hwq
      exact ⟨m, c1, c2, c3, c4, c5, c6⟩
  · -- issue the next file download
    have hstep : startNextFileDownload env s
        = ({ s with pending := some NetPending.fileDownload },
           [OrchEvent.netDownload
             (s.async.filesToDownload.getD s.async.currentDownloadIndex "")]) := by
      unfold startNextFileDownload
      rw [if_neg hdl]
    rw [hstep]
    refine ⟨0, by simp, rfl, by simp, ?_, hwq, ?_⟩
    · rw [show ({ s with pending := some NetPending.fileDownload } : OrchState).isInstalling
          = s.isInstalling from rfl, hbusy]
      rfl
    · intro hc
      rw [show ({ s with pending := some NetPending.fileDownload } : OrchState).isInstalling
          = s.isInstalling from rfl, hbusy] at hc
      exact Bool.noConfusion hc

/-- One orchestrator step from a well-formed state: it activates a FIFO prefix
of the request queue extended by the step's own (nonempty) submission, leaves
exactly the rest queued, keeps the activation/batch-end alternation intact,
and preserves well-formedness. -/
theorem step_invariant (env : OrchEnv) (s : OrchState) (i : OrchInput)
    (hwf : WfOrch s) :
    ∃ m, m ≤ (s.requestQueue ++ submitsOf [i]).length
      ∧ activationsOf (step env s i).2 = (s.requestQueue ++ submitsOf [i]).take m
      ∧ (step env s i).1.requestQueue = (s.requestQueue ++ submitsOf [i]).drop m
      ∧ altRun (!s.isInstalling) (step env s i).2
          = some (!(step env s i).1.isInstalling)
      ∧ WfOrch (step env s i).1 := by
  cases i with
  | submit packageNames =>
    by_cases hE : packageNames.isEmpty = true
    · have hsub : submitsOf [OrchInput.submit packageNames] = [] := by
        rw [List.isEmpty_iff.mp hE]
        rfl
      have hstep : step env s (OrchInput.submit packageNames)
          = (s, [OrchEvent.installationFinished "" false "No packages to install"]) := by
        simp only [step]
        rw [if_pos hE]
      rw [hstep, hsub, List.append_nil]
      exact ⟨0, by simp, rfl, rfl, rfl, hwf⟩
    · have hE' : packageNames.isEmpty = false := by
        revert hE; cases packageNames.isEmpty <;> simp
      have hneq : packageNames ≠ [] := by
        intro hc
        rw [hc] at hE'
        exact Bool.noConfusion hE'
      have hsub : submitsOf [OrchInput.submit packageNames] = [packageNames] := by
        simp [submitsOf, hneq]
      by_cases hIns : s.isInstalling = true
      ·
        have hstep : step env s (OrchInput.submit packageNames)
            = ({ s with requestQueue := s.requestQueue ++ [packageNames] }, []) := by
          simp only [step]
          rw [if_neg (by rw [hE']; exact fun hc => Bool.noConfusion hc), if_pos hIns]
        rw [hstep, hsub]
        refine ⟨0, by simp, rfl, rfl, rfl, ?_, ?_⟩
        · intro hc
          rcases List.mem_append.mp hc with h | h
          · exact hwf.1 h
          · exact hneq (List.mem_singleton.mp h).symm
        · intro hc
          rw [show ({ s with requestQueue := s.requestQueue ++ [packageNames] }
                : OrchState).isInstalling = s.isInstalling from rfl, hIns] at hc
          exact Bool.noConfusion hc
      · have hF : s.isInstalling = false := by
          revert hIns; cases s.isInstalling <;> simp
        obtain ⟨hQ, hpend⟩ := hwf.2 hF
        have hstep : step env s (OrchInput.submit packageNames)
            = runDrain env (activateRequest env packageNames s).1
                (activateRequest env packageNames s).2.1
                (activateRequest env packageNames s).2.2 := by
          simp only [step]
          rw [if_neg (by rw [hE']; exact fun hc => Bool.noConfusion hc), if_neg hIns]
        obtain ⟨a1, a2, a3, a4⟩ := activateRequest_spec env packageNames s hpend
        rw [hstep, hsub, hQ]
        cases hnd : (activateRequest env packageNames s).2.2 with
        | false =>
          obtain ⟨b1, b2, b3⟩ := a4 hnd
          rw [show runDrain env (activateRequest env packageNames s).1
                (activateRequest env packageNames s).2.1 false
              = ((activateRequest env packageNames s).1,
                 (activateRequest env packageNames s).2.1) from rfl]
          refine ⟨1, by simp, ?_, ?_, ?_, ?_, ?_⟩
          · rw [a2]
            rfl
          · rw [a1, hQ]
            rfl
          · rw [hF, b1]
            exact b3
          · rw [a1, hQ]
            simp
          · intro hc
            rw [b1] at hc
            exact Bool.noConfusion hc
        | true =>
          obtain ⟨b1, b2, b3⟩ := a3 hnd
          rw [show runDrain env (activateRequest env packageNames s).1
                (activateRequest env packageNames s).2.1 true
              = ((processNextRequestInQueue env
                    ((activateRequest env packageNames s).1.requestQueue.length + 1)
                    (activateRequest env packageNames s).1).1,
                 (activateRequest env packageNames s).2.1
                   ++ (processNextRequestInQueue env
                        ((activateRequest env packageNames s).1.requestQueue.length + 1)
                        (activateRequest env packageNames s).1).2) from rfl]
          have hwq' : [] ∉ (activateRequest env packageNames s).1.requestQueue := by
            rw [a1, hQ]
            simp
          obtain ⟨m, c1, c2, c3, c4, c5, c6⟩ :=
            processNextRequestInQueue_spec env
              ((activateRequest env packageNames s).1.requestQueue.length + 1)
              (activateRequest env packageNames s).1 b1 b2 hwq' (by omega)
          have hQ' : (activateRequest env packageNames s).1.requestQueue = [] := by
            rw [a1, hQ]
          have c2' := c2.trans (show
            (activateRequest env packageNames s).1.requestQueue.take m
              = ([] : List (List String)) by rw [hQ']; simp)
          have c3' := c3.trans (show
            (activateRequest env packageNames s).1.requestQueue.drop m
              = ([] : List (List String)) by rw [hQ']; simp)
          refine ⟨1, by simp, ?_, ?_, ?_, ?_, c6⟩
          · rw [activationsOf_append, a2, c2']
            rfl
          · rw [c3']
            rfl
          · rw [hF, Bool.not_false, altRun_append, b3]
            simpa using c4
          · exact c5
  | catalogResult r =>
    rw [show submitsOf [OrchInput.catalogResult r] = [] from rfl, List.append_nil]
    by_cases hp : s.pending = some NetPending.catalogFetch
    · have hbusy : s.isInstalling = true := by
        cases hIns : s.isInstalling
        · have hnone := (hwf.2 hIns).2
          rw [hp] at hnone
          exact Option.noConfusion hnone
        · rfl
      cases r with
      | error e =>
        have hstep : step env s (OrchInput.catalogResult (Except.error e))
            = runDrain env
                (finishAsyncInstallation { s with pending := none } false
                  ("Failed to fetch package list: " ++ e)).1
                (finishAsyncInstallation { s with pending := none } false
                  ("Failed to fetch package list: " ++ e)).2 true := by
          simp only [step]
          rw [if_neg (fun hne => hne hp)]
        rw [hstep, hbusy]
        obtain ⟨m, c1, c2, c3, c4, c5, c6⟩ :=
          runDrain_spec env
            (finishAsyncInstallation { s with pending := none } false
              ("Failed to fetch package list: " ++ e)).1
            (finishAsyncInstallation { s with pending := none } false
              ("Failed to fetch package list: " ++ e)).2
            true rfl (fun _ => ⟨rfl, rfl, rfl⟩) (fun hc => Bool.noConfusion hc) hwf.1
        exact ⟨m, c1, c2, c3, c4, c5, c6⟩
      | ok packages =>
        cases hfind : findPackageByName packages s.async.packageName with
        | none =>
          have hstep : step env s (OrchInput.catalogResult (Except.ok packages))
              = runDrain env
                  (finishAsyncInstallation { s with pending := none } false
                    ("Package not found: " ++ s.async.packageName)).1
                  (finishAsyncInstallation { s with pending := none } false
                    ("Package not found: " ++ s.async.packageName)).2 true := by
            simp only [step]
            rw [if_neg (fun hne => hne hp), hfind]
          rw [hstep, hbusy]
          obtain ⟨m, c1, c2, c3, c4, c5, c6⟩ :=
            runDrain_spec env
              (finishAsyncInstallation { s with pending := none } false
                ("Package not found: " ++ s.async.packageName)).1
              (finishAsyncInstallation { s with pending := none } false
                ("Package not found: " ++ s.async.packageName)).2
              true rfl (fun _ => ⟨rfl, rfl, rfl⟩) (fun hc => Bool.noConfusion hc) hwf.1
          exact ⟨m, c1, c2, c3, c4, c5, c6⟩
        | some pObj =>
          have hstep : step env s (OrchInput.catalogResult (Except.ok packages))
              = (if pObj.packageFile = "" then
                  runDrain env
                    (finishAsyncInstallation { s with pending := none } false
                      "Package has no package file specified").1
                    (finishAsyncInstallation { s with pending := none } false
                      "Package has no package file specified").2 true
                 else
                  startNextFileDownload env
                    { s with pending := none, async := { s.async with
                        packageObj := some pObj,
                        filesToDownload := s.async.filesToDownload ++ [pObj.packageFile],
                        currentDownloadIndex := 0 } }) := by
            simp only [step]
            rw [if_neg (fun hne => hne hp), hfind]
          rw [hstep, hbusy]
          by_cases hpf : pObj.packageFile = ""
          · rw [if_pos hpf]
            obtain ⟨m, c1, c2, c3, c4, c5, c6⟩ :=
              runDrain_spec env
                (finishAsyncInstallation { s with pending := none } false
                  "Package has no package file specified").1
                (finishAsyncInstallation { s with pending := none } false
                  "Package has no package file specified").2
                true rfl (fun _ => ⟨rfl, rfl, rfl⟩) (fun hc => Bool.noConfusion hc) hwf.1
            exact ⟨m, c1, c2, c3, c4, c5, c6⟩
          · rw [if_neg hpf]
            obtain ⟨m, c1, c2, c3, c4, c5, c6⟩ :=
              startNextFileDownload_spec env
                { s with isInstalling := true, pending := none, async := { s.async with
                    packageObj := some pObj,
                    filesToDownload := s.async.filesToDownload ++ [pObj.packageFile],
                    currentDownloadIndex := 0 } }
                rfl rfl hwf.1
            exact ⟨m, c1, c2, c3, c4, c5, c6⟩
    · have hstep : step env s (OrchInput.catalogResult r) = (s, []) := by
        simp only [step]
        rw [if_pos hp]
      rw [hstep]
      exact ⟨0, by simp, rfl, rfl, rfl, hwf⟩
  | downloadResult r =>
    rw [show submitsOf [OrchInput.downloadResult r] = [] from rfl, List.append_nil]
    by_cases hp : s.pending = some NetPending.fileDownload
    · have hbusy : s.isInstalling = true := by
        cases hIns : s.isInstalling
        · have hnone := (hwf.2 hIns).2
          rw [hp] at hnone
          exact Option.noConfusion hnone
        · rfl
      cases r with
      | error e =>
        have hstep : step env s (OrchInput.downloadResult (Except.error e))
            = runDrain env
                (finishAsyncInstallation { s with pending := none } false
                  ("Failed to download "
                    ++ s.async.filesToDownload.getD s.async.currentDownloadIndex ""
                    ++ ": " ++ e)).1
                (finishAsyncInstallation { s with pending := none } false
                  ("Failed to download "
                    ++ s.async.filesToDownload.getD s.async.currentDownloadIndex ""
                    ++ ": " ++ e)).2 true := by
          simp only [step]
          rw [if_neg (fun hne => hne hp)]
        rw [hstep, hbusy]
        obtain ⟨m, c1, c2, c3, c4, c5, c6⟩ :=
          runDrain_spec env
            (finishAsyncInstallation { s with pending := none } false
              ("Failed to download "
                ++ s.async.filesToDownload.getD s.async.currentDownloadIndex ""
                ++ ": " ++ e)).1
            (finishAsyncInstallation { s with pending := none } false
              ("Failed to download "
                ++ s.async.filesToDownload.getD s.async.currentDownloadIndex ""
                ++ ": " ++ e)).2
            true rfl (fun _ => ⟨rfl, rfl, rfl⟩) (fun hc => Bool.noConfusion hc) hwf.1
        exact ⟨m, c1, c2, c3, c4, c5, c6⟩
      | ok u =>
        have hstep : step env s (OrchInput.downloadResult (Except.ok u))
            = (if env.mkpathOk = false then
                runDrain env
                  (finishAsyncInstallation { s with pending := none } false
                    "Failed to create destination directory").1
                  (finishAsyncInstallation { s with pending := none } false
                    "Failed to create destination directory").2 true
               else if env.openOk (s.async.tempDir ++ "/"
                   ++ s.async.filesToDownload.getD s.async.currentDownloadIndex "")
                   = false then
                runDrain env
                  (finishAsyncInstallation { s with pending := none } false
                    ("Failed to open file for writing: " ++ (s.async.tempDir ++ "/"
                      ++ s.async.filesToDownload.getD s.async.currentDownloadIndex ""))).1
                  (finishAsyncInstallation { s with pending := none } false
                    ("Failed to open file for writing: " ++ (s.async.tempDir ++ "/"
                      ++ s.async.filesToDownload.getD s.async.currentDownloadIndex ""))).2
                  true
               else if env.writeAllOk (s.async.tempDir ++ "/"
                   ++ s.async.filesToDownload.getD s.async.currentDownloadIndex "")
                   = false then
                runDrain env
                  (finishAsyncInstallation { s with pending := none } false
                    "Failed to write all data to file").1
                  (finishAsyncInstallation { s with pending := none } false
                    "Failed to write all data to file").2 true
               else
                startNextFileDownload env
                  { s with pending := none, async := { s.async with
                      downloadedFiles := s.async.downloadedFiles
                        ++ [s.async.tempDir ++ "/"
                            ++ s.async.filesToDownload.getD s.async.currentDownloadIndex ""],
                      currentDownloadIndex := s.async.currentDownloadIndex + 1 } }) := by
          simp only [step]
          rw [if_neg (fun hne => hne hp)]
        rw [hstep, hbusy]
        by_cases hmk : env.mkpathOk = false
        · rw [if_pos hmk]
          obtain ⟨m, c1, c2, c3, c4, c5, c6⟩ :=
            runDrain_spec env
              (finishAsyncInstallation { s with pending := none } false
                "Failed to create destination directory").1
              (finishAsyncInstallation { s with pending := none } false
                "Failed to create destination directory").2
              true rfl (fun _ => ⟨rfl, rfl, rfl⟩) (fun hc => Bool.noConfusion hc) hwf.1
          exact ⟨m, c1, c2, c3, c4, c5, c6⟩
        · rw [if_neg hmk]
          by_cases hop : env.openOk (s.async.tempDir ++ "/"
              ++ s.async.filesToDownload.getD s.async.currentDownloadIndex "") = false
          · rw [if_pos hop]
            obtain ⟨m, c1, c2, c3, c4, c5, c6⟩ :=
              runDrain_spec env
                (finishAsyncInstallation { s with pending := none } false
                  ("Failed to open file for writing: " ++ (s.async.tempDir ++ "/"
                    ++ s.async.filesToDownload.getD s.async.currentDownloadIndex ""))).1
                (finishAsyncInstallation { s with pending := none } false
                  ("Failed to open file for writing: " ++ (s.async.tempDir ++ "/"
                    ++ s.async.filesToDownload.getD s.async.currentDownloadIndex ""))).2
                true rfl (fun _ => ⟨rfl, rfl, rfl⟩) (fun hc => Bool.noConfusion hc) hwf.1
            exact ⟨m, c1, c2, c3, c4, c5, c6⟩
          · rw [if_neg hop]
            by_cases hwr : env.writeAllOk (s.async.tempDir ++ "/"
                ++ s.async.filesToDownload.getD s.async.currentDownloadIndex "") = false
            · rw [if_pos hwr]
              obtain ⟨m, c1, c2, c3, c4, c5, c6⟩ :=
                runDrain_spec env
                  (finishAsyncInstallation { s with pending := none } false
                    "Failed to write all data to file").1
                  (finishAsyncInstallation { s with pending := none } false
                    "Failed to write all data to file").2
                  true rfl (fun _ => ⟨rfl, rfl, rfl⟩) (fun hc => Bool.noConfusion hc) hwf.1
              exact ⟨m, c1, c2, c3, c4, c5, c6⟩
            · rw [if_neg hwr]
              obtain ⟨m, c1, c2, c3, c4, c5, c6⟩ :=
                startNextFileDownload_spec env
                  { s with isInstalling := true, pending := none, async := { s.async with
                      downloadedFiles := s.async.downloadedFiles
                        ++ [s.async.tempDir ++ "/"
                            ++ s.async.filesToDownload.getD s.async.currentDownloadIndex ""],
                      currentDownloadIndex := s.async.currentDownloadIndex + 1 } }
                  rfl rfl hwf.1
              exact ⟨m, c1, c2, c3, c4, c5, c6⟩
    · have hstep : step env s (OrchInput.downloadResult r) = (s, []) := by
        simp only [step]
        rw [if_pos hp]
      rw [hstep]
      exact ⟨0, by simp, rfl, rfl, rfl, hwf⟩

/-- The whole-run FIFO/serialization invariant: over any input sequence from a
well-formed state, the activated requests are exactly a FIFO prefix of the
queued-then-submitted (nonempty) requests, the remainder is still queued, the
activation/batch-end alternation holds over the full trace, and the final
state is well-formed. -/
theorem run_invariant (env : OrchEnv) :
    ∀ (inputs : List OrchInput) (s : OrchState), WfOrch s →
      ∃ m, m ≤ (s.requestQueue ++ submitsOf inputs).length
        ∧ activationsOf (run env s inputs).2 = (s.requestQueue ++ submitsOf inputs).take m
        ∧ (run env s inputs).1.requestQueue = (s.requestQueue ++ submitsOf inputs).drop m
        ∧ altRun (!s.isInstalling) (run env s inputs).2
            = some (!(run env s inputs).1.isInstalling)
        ∧ WfOrch (run env s inputs).1 := by
  intro inputs
  induction inputs with
  | nil =>
    intro s hwf
    rw [show submitsOf ([] : List OrchInput) = [] from rfl, List.append_nil]
    exact ⟨0, by simp, rfl, rfl, rfl, hwf⟩
  | cons e es ih =>
    intro s hwf
    obtain ⟨m₁, d1, d2, d3, d4, d5⟩ := step_invariant env s e hwf
    obtain ⟨m₂, e1, e2, e3, e4, e5⟩ := ih (step env s e).1 d5
    have hrun : run env s (e :: es)
        = ((run env (step env s e).1 es).1,
           (step env s e).2 ++ (run env (step env s e).1 es).2) := by
      conv_lhs => rw [run]
    rw [hrun, submitsOf_cons, ← List.append_assoc]
    obtain ⟨t1, t2⟩ :=
      take_drop_chain (s.requestQueue ++ submitsOf [e]) (submitsOf es) m₁ m₂ d1
    rw [d3] at e1 e2 e3
    refine ⟨m₁ + m₂, ?_, ?_, ?_, ?_, e5⟩
    · simp only [List.length_append, List.length_drop] at e1 ⊢
      simp only [List.length_append] at d1
      omega
    · rw [activationsOf_append, d2, e2, t1]
    · rw [e3, t2]
    · rw [altRun_append, d4]
      simpa using e4

/-- `PackageManagerLib::installPackage` (lines 380-433), the synchronous
single-package path, with its collaborators (catalog fetch, temp directory,
`downloadFile`, `installPluginFile`) abstracted as oracles keyed by the
package file: each stage's failure returns `false`, success of all stages
returns `true`. -/
structure SyncEnv where
  catalog : List Pkg := []
  tempDirOk : Bool := true
  downloadOk : String → Bool := fun _ => true
  installOk : String → Bool := fun _ => true

def installPackage (env : SyncEnv) (packageName : String) : Bool :=
  if env.catalog.isEmpty then false
  else
    match findPackageByName env.catalog packageName with
    | none => false
    | some packageObj =>
      if packageObj.packageFile = "" then false
      else if env.tempDirOk = false then false
      else if env.downloadOk packageObj.packageFile = false then false
      else env.installOk packageObj.packageFile

/-- `PackageManagerLib::installPackages` (lines 358-379): resolve the request,
then loop over the resolved queue calling `installPackage` on every entry —
a failure only clears `allSuccess` and the loop continues. The loop body is
instrumented with the list of `installPackage` calls made and their
results. -/
def installPackages (env : SyncEnv) (packageNames : List String) :
    Bool × List (String × Bool) :=
  if packageNames.isEmpty then (false, [])
  else
    (resolveDependencies packageNames env.catalog).foldl
      (fun acc packageName =>
        (acc.1 && installPackage env packageName,
         acc.2 ++ [(packageName, installPackage env packageName)]))
      (true, [])

theorem installPackages_foldl (env : SyncEnv) :
    ∀ (l : List String) (acc : Bool × List (String × Bool)),
      (l.foldl (fun acc packageName =>
          (acc.1 && installPackage env packageName,
           acc.2 ++ [(packageName, installPackage env packageName)])) acc)
        = (acc.1 && l.all (fun n => installPackage env n),
           acc.2 ++ l.map (fun n => (n, installPackage env n))) := by
  intro l
  induction l with
  | nil => intro acc; simp
  | cons a t ih =>
    intro acc
    rw [List.foldl_cons, ih]
    simp [Bool.and_assoc]

/-- The catalog of the C2/C7 failing runs: "A" depends on "B", both have
package files. -/
def xcatAB : List Pkg :=
  [{ name := "A", dependencies := ["B"], packageFile := "a.lgx" },
   { name := "B", dependencies := [], packageFile := "b.lgx" }]

def xenvAB : OrchEnv := { resolveCatalog := xcatAB }

/-- C10: calling `installPackagesAsync` with an empty list of package names
immediately emits `installationFinished("", false, "No packages to install")`
and leaves the orchestrator state unchanged — for every state, so in
particular `isInstalling` stays `false` when idle, nothing is queued, and no
network request is issued. -/
theorem installPackagesAsync_emptyNames (env : OrchEnv) (s : OrchState) :
    step env s (OrchInput.submit [])
      = (s, [OrchEvent.installationFinished "" false "No packages to install"]) := rfl

/-- C2, counterexample: a queued request can start although a package of the
previous batch never finished. With catalog `A → B`, submitting `["A"]` then
`["C"]` while busy, the batch `["B", "A"]` is aborted by B's download failure:
"A" is never attempted and never reported finished, yet the queued request
`["C"]` is activated. This refutes the claim that a queued request begins
only after every package of the previous batch has finished. -/
theorem installPackagesAsync_afterBatch_cex :
    resolveDependencies ["A"] xcatAB = ["B", "A"]
    ∧ (run xenvAB initOrchState
        [OrchInput.submit ["A"], OrchInput.submit ["C"],
         OrchInput.catalogResult (Except.ok xcatAB),
         OrchInput.downloadResult (Except.error "net")]).2
      = [OrchEvent.requestActivated ["A"],
         OrchEvent.netCatalogFetch,
         OrchEvent.netDownload "b.lgx",
         OrchEvent.installationFinished "B" false "Failed to download b.lgx: net",
         OrchEvent.batchEnded,
         OrchEvent.requestActivated ["C"],
         OrchEvent.batchEnded]
    ∧ OrchEvent.requestActivated ["C"]
        ∈ (run xenvAB initOrchState
            [OrchInput.submit ["A"], OrchInput.submit ["C"],
             OrchInput.catalogResult (Except.ok xcatAB),
             OrchInput.downloadResult (Except.error "net")]).2
    ∧ ((run xenvAB initOrchState
          [OrchInput.submit ["A"], OrchInput.submit ["C"],
           OrchInput.catalogResult (Except.ok xcatAB),
           OrchInput.downloadResult (Except.error "net")]).2.filter
        (fun e => match e with
          | OrchEvent.installationFinished pn _ _ => pn == "A"
          | _ => false)) = [] := by
  refine ⟨by decide, by decide, by decide, by decide⟩

/-- C2, amended: what `installPackagesAsync` does guarantee. (i) A nonempty
submission while busy is a pure FIFO enqueue: the state change is exactly an
append to the request queue and nothing is emitted. (ii) Over every input
sequence from the initial state, the activated requests are exactly a FIFO
prefix of the nonempty submissions, the rest is still queued, and activations
and batch ends strictly alternate (so no two batches — hence no two package
installations — ever overlap); a queued request starts only after the current
batch has ended, though a batch may end by aborting on a failure rather than
by finishing every package. -/
theorem installPackagesAsync_serialized_amended :
    (∀ (env : OrchEnv) (s : OrchState) (ns : List String),
        ns ≠ [] → s.isInstalling = true →
        step env s (OrchInput.submit ns)
          = ({ s with requestQueue := s.requestQueue ++ [ns] }, []))
    ∧ (∀ (env : OrchEnv) (inputs : List OrchInput),
        ∃ m, activationsOf (run env initOrchState inputs).2
              = (submitsOf inputs).take m
          ∧ (run env initOrchState inputs).1.requestQueue
              = (submitsOf inputs).drop m
          ∧ altRun true (run env initOrchState inputs).2
              = some (!(run env initOrchState inputs).1.isInstalling)) := by
  constructor
  · intro env s ns hne hbusy
    have hE : ns.isEmpty = false := by
      cases ns with
      | nil => exact absurd rfl hne
      | cons a t => rfl
    simp only [step]
    rw [if_neg (by rw [hE]; exact fun hc => Bool.noConfusion hc), if_pos hbusy]
  · intro env inputs
    obtain ⟨m, _, c2, c3, c4, _⟩ :=
      run_invariant env inputs initOrchState ⟨(fun h => nomatch h), fun _ => ⟨rfl, rfl⟩⟩
    exact ⟨m, c2, c3, c4⟩

def wstateC2 : OrchState :=
  { isInstalling := true, requestQueue := [["A"]], async := {}, pending := none }

/-- Witness for the C2 amendment: a concrete busy state really enqueues. -/
theorem installPackagesAsync_serialized_amended_witness :
    step ({} : OrchEnv) wstateC2 (OrchInput.submit ["B"])
      = ({ wstateC2 with requestQueue := [["A"], ["B"]] }, []) :=
  installPackagesAsync_serialized_amended.1 ({} : OrchEnv) wstateC2 ["B"]
    (by decide) rfl

/-- C7, counterexample: in the asynchronous path a single package's failure
aborts the whole resolved batch. With catalog `A → B` and batch
`["B", "A"]`, B's download failure makes `finishAsyncInstallation` clear the
package queue: the run ends the batch and the sibling "A" is never attempted
(no `installAttempt` and no `installationFinished` for "A" at all), refuting
the claim that every sibling in the same resolved queue is still attempted. -/
theorem batchFailure_siblings_cex :
    resolveDependencies ["A"] xcatAB = ["B", "A"]
    ∧ (run xenvAB initOrchState
        [OrchInput.submit ["A"],
         OrchInput.catalogResult (Except.ok xcatAB),
         OrchInput.downloadResult (Except.error "net")]).2
      = [OrchEvent.requestActivated ["A"],
         OrchEvent.netCatalogFetch,
         OrchEvent.netDownload "b.lgx",
         OrchEvent.installationFinished "B" false "Failed to download b.lgx: net",
         OrchEvent.batchEnded]
    ∧ ((run xenvAB initOrchState
          [OrchInput.submit ["A"],
           OrchInput.catalogResult (Except.ok xcatAB),
           OrchInput.downloadResult (Except.error "net")]).2.filter
        (fun e => match e with
          | OrchEvent.installAttempt _ => true
          | OrchEvent.installationFinished pn _ _ => pn == "A"
          | _ => false)) = []
    ∧ (run xenvAB initOrchState
        [OrchInput.submit ["A"],
         OrchInput.catalogResult (Except.ok xcatAB),
         OrchInput.downloadResult (Except.error "net")]).1.isInstalling = false := by
  refine ⟨by decide, by decide, by decide, by decide⟩

/-- C7, amended: where failure recovery at the batch-item boundary does hold.
(i) In the synchronous path, `installPackages` attempts every package of the
resolved queue exactly once in order whatever the individual results, and
returns success iff all attempts succeeded. (ii) In the asynchronous path, a
failure of the `installPluginFile` stage itself (after all files of the
current package downloaded) does not abort the batch: the per-package failure
is reported and the machine moves on to the next package of the queue,
issuing its catalog fetch. Failures of the earlier per-package stages
(catalog fetch, lookup, download, file writing) do abort the remaining
batch. -/
theorem batchFailure_recovery_amended :
    (∀ (env : SyncEnv) (packageNames : List String), packageNames ≠ [] →
        (installPackages env packageNames).2
            = (resolveDependencies packageNames env.catalog).map
                (fun n => (n, installPackage env n))
          ∧ (installPackages env packageNames).1
            = (resolveDependencies packageNames env.catalog).all
                (fun n => installPackage env n))
    ∧ (∀ (env : OrchEnv) (s : OrchState),
        s.async.currentDownloadIndex ≥ s.async.filesToDownload.length →
        s.async.downloadedFiles.all env.installOk = false →
        s.async.currentPackageIndex + 1 < s.async.packageQueue.length →
        (startNextFileDownload env s).2
            = s.async.downloadedFiles.map OrchEvent.installAttempt
              ++ [OrchEvent.installationFinished s.async.packageName false
                    "Some files failed to install"]
              ++ [OrchEvent.netCatalogFetch]
          ∧ (startNextFileDownload env s).1.pending = some NetPending.catalogFetch
          ∧ (startNextFileDownload env s).1.async.currentPackageIndex
              = s.async.currentPackageIndex + 1
          ∧ (startNextFileDownload env s).1.async.packageQueue
              = s.async.packageQueue
          ∧ (startNextFileDownload env s).1.isInstalling = s.isInstalling) := by
  constructor
  · intro env packageNames hne
    have hE : packageNames.isEmpty = false := by
      cases packageNames with
      | nil => exact absurd rfl hne
      | cons a t => rfl
    unfold installPackages
    rw [if_neg (by rw [hE]; exact fun hc => Bool.noConfusion hc),
        installPackages_foldl]
    exact ⟨by simp, by simp⟩
  · intro env s h1 hfail h2
    have hstep : startNextFileDownload env s
        = runDrain env
            (startNextPackageInQueue { s with async := { s.async with
              filesToDownload := ([] : List String), downloadedFiles := ([] : List String),
              currentDownloadIndex := 0,
              currentPackageIndex := s.async.currentPackageIndex + 1 } }).1
            (s.async.downloadedFiles.map OrchEvent.installAttempt
              ++ [OrchEvent.installationFinished s.async.packageName
                    (s.async.downloadedFiles.all env.installOk)
                    (if s.async.downloadedFiles.all env.installOk then ""
                     else "Some files failed to install")]
              ++ (startNextPackageInQueue { s with async := { s.async with
                    filesToDownload := ([] : List String),
                    downloadedFiles := ([] : List String), currentDownloadIndex := 0,
                    currentPackageIndex := s.async.currentPackageIndex + 1 } }).2.1)
            (startNextPackageInQueue { s with async := { s.async with
              filesToDownload := ([] : List String), downloadedFiles := ([] : List String),
              currentDownloadIndex := 0,
              currentPackageIndex := s.async.currentPackageIndex + 1 } }).2.2 := by
      unfold startNextFileDownload
      rw [if_pos h1]
    have hsn : startNextPackageInQueue { s with async := { s.async with
          filesToDownload := ([] : List String), downloadedFiles := ([] : List String),
          currentDownloadIndex := 0,
          currentPackageIndex := s.async.currentPackageIndex + 1 } }
        = ({ s with pending := some NetPending.catalogFetch, async := { s.async with
              packageName := s.async.packageQueue.getD (s.async.currentPackageIndex + 1) "",
              filesToDownload := ([] : List String), downloadedFiles := ([] : List String),
              currentDownloadIndex := 0,
              currentPackageIndex := s.async.currentPackageIndex + 1 } },
           [OrchEvent.netCatalogFetch], false) := by
      unfold startNextPackageInQueue
      rw [if_neg (by simpa using h2)]
    rw [hstep, hsn, hfail]
    exact ⟨rfl, rfl, rfl, rfl, rfl⟩

def wsyncC7 : SyncEnv :=
  { catalog := xcatAB, installOk := fun f => f == "a.lgx" }

def wstateC7 : OrchState :=
  { isInstalling := true, requestQueue := [],
    async := { packageName := "P", packageQueue := ["P", "Q"],
               currentPackageIndex := 0, filesToDownload := [],
               downloadedFiles := ["/tmp/p.lgx"], currentDownloadIndex := 0,
               tempDir := "/tmp" },
    pending := none }

def wenvC7 : OrchEnv := { installOk := fun _ => false }

/-- Witness for the C7 amendment: a concrete sync run attempts both packages
of the batch although one fails, and a concrete async per-file install
failure reports the package and moves on to the next one. -/
theorem batchFailure_recovery_amended_witness :
    ((installPackages wsyncC7 ["A"]).2 = [("B", false), ("A", true)]
      ∧ (installPackages wsyncC7 ["A"]).1 = false)
    ∧ ((startNextFileDownload wenvC7 wstateC7).2
          = [OrchEvent.installAttempt "/tmp/p.lgx",
             OrchEvent.installationFinished "P" false "Some files failed to install",
             OrchEvent.netCatalogFetch]
        ∧ (startNextFileDownload wenvC7 wstateC7).1.pending
            = some NetPending.catalogFetch) := by
  constructor
  · have h := batchFailure_recovery_amended.1 wsyncC7 ["A"] (by decide)
    exact ⟨by rw [h.1]; decide, by rw [h.2]; decide⟩
  · have h := batchFailure_recovery_amended.2 wenvC7 wstateC7
      (by decide) rfl (by decide)
    exact ⟨by rw [h.1]; decide, h.2.1⟩
